import Mathlib

/-!
# Verification of the bodychalk contour-tracing core

Shallow embedding of `src/modules/contour.js` (class `ContourTracer`).

Modelling conventions:
* Pixel coordinates are integers (`Point := ℤ × ℤ`); numeric mask values and
  all geometric quantities are exact rationals (`ℚ`).
* The JS binary mask is an array that may contain holes (`undefined` cells,
  e.g. when the input data is shorter than `width*height`) and may be longer
  than `width*height`.  We model it as `List (Option ℕ)`; reading a cell with
  `maskGet` returns `none` for holes and out-of-range indices, matching the
  behaviour of `undefined` under the strict comparisons `=== 0` / `=== 1`.
* `Math.sqrt` appears in the source only inside `perpendicularDistance`, whose
  value is then used solely in `>` comparisons against other such distances
  (initial maximum `0`) and against the tolerance.  Since `Real.sqrt` is
  strictly monotone on nonnegative rationals, we embed the *squared* distance
  (`perpendicularDistanceSq`, an exact rational) and translate the two kinds
  of comparison: `√a > √b ↔ a > b` for the running maximum, and
  `√a > t ↔ (t < 0 ∨ a > t²)` (`sqrtGtQ`) for the tolerance test.  This is an
  exact translation of the comparisons performed by the source.
* The unbounded JS recursion in `simplifyContour` is given explicit fuel
  (`contour.length`, which dominates the recursion depth whenever the JS
  recursion terminates, i.e. for nonnegative tolerances).
* The emitted SVG path string is modelled as the stream of path commands it
  denotes (`PathCmd`), the spec's "path command stream".
* The tracer configuration (`ContourTracer`'s constructor fields) is the
  structure `TracerConfig`; the JS `options.x || default` idiom is modelled by
  the default values bundled in `defaultTracerConfig`.
-/

abbrev Point : Type := ℤ × ℤ

abbrev Contour : Type := List Point

abbrev Mask : Type := List (Option ℕ)

/-- Curve style flag of the path synthesizer (`this.curveType`). -/
inductive CurveType where
  | straight : CurveType
  | quadratic : CurveType
deriving DecidableEq

/-- Constructor-time configuration of `ContourTracer` (contour.js lines 2-8). -/
structure TracerConfig where
  threshold : ℚ
  curveType : CurveType
  curveTension : ℚ
  removeDuplicates : Bool
  overlapThreshold : ℚ
deriving DecidableEq

/-- The defaults of the constructor: threshold 0.5, curveType quadratic,
curveTension 0.5, removeDuplicates true, overlapThreshold 0.7. -/
def defaultTracerConfig : TracerConfig :=
  ⟨1/2, CurveType.quadratic, 1/2, true, 7/10⟩

/-- The raw segmentation input: `{width, height, data}` (contour.js line 19). -/
structure Segmentation where
  width : ℕ
  height : ℕ
  data : List ℚ

/-- Per-pixel classification of the mask normalizer (contour.js lines 43-54):
`1 ↦ 1`, `0 ↦ 0`, otherwise foreground iff the value exceeds `0.5`. -/
def classifyPixel (v : ℚ) : ℕ :=
  if v = 1 then 1 else if v = 0 then 0 else if 1/2 < v then 1 else 0

/-- The binary mask built by the loop at contour.js lines 36-55: the `i`-th
cell is the classification of `data[i]`; cells from `data.length` up to
`size` (the allocated `width*height`) stay holes (`undefined`). -/
def buildMask (data : List ℚ) (size : ℕ) : Mask :=
  data.map (fun v => some (classifyPixel v)) ++ List.replicate (size - data.length) none

/-- `personPixelCount` of contour.js lines 36-55: the number of data entries
classified as foreground (the loop runs over the whole data array). -/
def personPixelCount (data : List ℚ) : ℕ :=
  (data.filter (fun v => classifyPixel v = 1)).length

/-- Reading `mask[i]`: `undefined` (modelled `none`) for negative, hole or
out-of-range indices. -/
def maskGet (m : Mask) (i : ℤ) : Option ℕ :=
  if 0 ≤ i then m.getD i.toNat none else none

/-- Whether linear index `i` denotes a frame-border cell of a `w × h` grid
(the condition of contour.js line 88 for the cell `(x, y) = (i % w, i / w)`,
restricted to the grid actually scanned by the loop). -/
def isBorderIdx (w h : ℕ) (i : ℕ) : Bool :=
  decide (i < w * h) &&
    (decide (i % w = 0) || decide (i % w = w - 1) ||
     decide (i / w = 0) || decide (i / w = h - 1))

/-- The copy-and-overwrite loop of `addFrameEdgePadding`: walks the copied
array, forcing every frame-border cell to background `0`. -/
def overwriteBorder (w h : ℕ) : ℕ → Mask → Mask
  | _, [] => []
  | i, v :: rest =>
      (if isBorderIdx w h i then some 0 else v) :: overwriteBorder w h (i + 1) rest

/-- `addFrameEdgePadding` (contour.js lines 79-95): a copy of the mask with
every cell on the frame edge (`x = 0 ∨ x = w-1 ∨ y = 0 ∨ y = h-1`) set to 0.
(The JS writes through indices `y*w+x < w*h`; in the pipeline the mask always
has length `≥ w*h`, so overwriting existing cells is exact.) -/
def addFrameEdgePadding (m : Mask) (w h : ℕ) : Mask :=
  overwriteBorder w h 0 m

/-- The 8-connected neighbor offsets `(dx, dy)` of contour.js lines 226-230. -/
def neighborOffsets : List (ℤ × ℤ) :=
  [(-1, -1), (-1, 0), (-1, 1), (0, -1), (0, 1), (1, -1), (1, 0), (1, 1)]

/-- `isBoundaryPixel` (contour.js lines 221-245): a non-background pixel with
at least one in-bounds background 8-neighbor. -/
def isBoundaryPixel (m : Mask) (w h : ℕ) (x y : ℤ) : Bool :=
  if maskGet m (y * w + x) = some 0 then false
  else
    neighborOffsets.any fun d =>
      let nx := x + d.1
      let ny := y + d.2
      decide (0 ≤ nx) && decide (nx < (w : ℤ)) && decide (0 ≤ ny) &&
        decide (ny < (h : ℤ)) && decide (maskGet m (ny * w + nx) = some 0)

/-- The 8 trace directions `(dx, dy)` of contour.js lines 249-252. -/
def traceDirections : List (ℤ × ℤ) :=
  [(1, 0), (1, 1), (0, 1), (-1, 1), (-1, 0), (-1, -1), (0, -1), (1, -1)]

/-- One neighbor scan of `traceContour` (contour.js lines 266-282): starting
from the incoming direction, the first of the 8 directions leading to an
in-bounds foreground boundary pixel, together with the left-turned new
direction `(chosen + 6) % 8`. -/
def findNext (m : Mask) (w h : ℕ) (x y : ℤ) (dir : ℕ) : Option (ℤ × ℤ × ℕ) :=
  (List.range 8).findSome? fun i =>
    let newDir := (dir + i) % 8
    let d := traceDirections.getD newDir (0, 0)
    let nx := x + d.1
    let ny := y + d.2
    if 0 ≤ nx ∧ nx < (w : ℤ) ∧ 0 ≤ ny ∧ ny < (h : ℤ) ∧
        maskGet m (ny * w + nx) = some 1 ∧ isBoundaryPixel m w h nx ny = true
    then some (nx, ny, (newDir + 6) % 8)
    else none

/-- The do-while loop of `traceContour` (contour.js lines 260-287).  Each
round marks the current pixel visited and appends it to the contour; the loop
stops when no next boundary pixel exists, when the trace returns to the exact
starting pixel, or when the step budget (fuel, initially `maxSteps - 1`) is
exhausted — `maxSteps = 5000` loop bodies in total (at fuel 0 the body still
runs but never continues, in either branch of the scan). -/
def traceLoop (m : Mask) (w h : ℕ) (startX startY : ℤ) :
    ℕ → ℤ → ℤ → ℕ → List ℤ → Contour → Contour × List ℤ
  | 0, x, y, _, visited, acc =>
    (acc ++ [(x, y)], (y * w + x) :: visited)
  | f + 1, x, y, dir, visited, acc =>
    let visited' := (y * w + x) :: visited
    let acc' := acc ++ [(x, y)]
    match findNext m w h x y dir with
    | none => (acc', visited')
    | some (nx, ny, ndir) =>
      if nx = startX ∧ ny = startY then (acc', visited')
      else traceLoop m w h startX startY f nx ny ndir visited' acc'

/-- `traceContour` (contour.js lines 247-290): Moore-neighborhood boundary
trace from `(sx, sy)`, initial direction 0, hard cap of 5000 steps.  Returns
the traced contour and the updated visited set. -/
def traceContour (m : Mask) (w h : ℕ) (sx sy : ℤ) (visited : List ℤ) :
    Contour × List ℤ :=
  traceLoop m w h sx sy 4999 sx sy 0 visited []

/-- The interior scan order of `findContours` (contour.js lines 202-216):
row-major over `1 ≤ y ≤ h-2`, `1 ≤ x ≤ w-2`, as `(x, y)` pairs. -/
def interiorCoords (w h : ℕ) : List (ℕ × ℕ) :=
  ((List.range (h - 2)).map (· + 1)).flatMap fun y =>
    ((List.range (w - 2)).map (· + 1)).map fun x => (x, y)

/-- The scan loop body of `findContours`: for each interior coordinate, an
unvisited foreground boundary pixel starts a trace; traces longer than 10
points are collected, and the visited set persists across all traces. -/
def findContoursAux (m : Mask) (w h : ℕ) :
    List (ℕ × ℕ) → List ℤ → List Contour → List Contour × List ℤ
  | [], visited, acc => (acc, visited)
  | (x, y) :: rest, visited, acc =>
    let index : ℤ := (y : ℤ) * w + x
    if maskGet m index = some 1 ∧ index ∉ visited then
      if isBoundaryPixel m w h x y then
        let traced := traceContour m w h x y visited
        if 10 < traced.1.length then
          findContoursAux m w h rest traced.2 (acc ++ [traced.1])
        else
          findContoursAux m w h rest traced.2 acc
      else findContoursAux m w h rest visited acc
    else findContoursAux m w h rest visited acc

/-- `findContours` (contour.js lines 197-219). -/
def findContours (m : Mask) (w h : ℕ) : List Contour :=
  (findContoursAux m w h (interiorCoords w h) [] []).1

/-- Bounding box of a contour (contour.js lines 149-172). -/
structure BBox where
  minX : ℤ
  minY : ℤ
  maxX : ℤ
  maxY : ℤ
  width : ℤ
  height : ℤ
  area : ℤ
deriving DecidableEq

/-- `Math.min` on integer pixel coordinates (kernel-computable). -/
def zmin (a b : ℤ) : ℤ := if a ≤ b then a else b

/-- `Math.max` on integer pixel coordinates (kernel-computable). -/
def zmax (a b : ℤ) : ℤ := if a ≤ b then b else a

/-- `calculateBoundingBox` (contour.js lines 149-172); the empty contour gets
the all-zero box. -/
def calculateBoundingBox (contour : Contour) : BBox :=
  match contour with
  | [] => ⟨0, 0, 0, 0, 0, 0, 0⟩
  | p :: rest =>
    let st := rest.foldl
      (fun st q =>
        match st with
        | (a, b, c, d) => (zmin a q.1, zmin b q.2, zmax c q.1, zmax d q.2))
      (p.1, p.2, p.1, p.2)
    match st with
    | (mnX, mnY, mxX, mxY) =>
      ⟨mnX, mnY, mxX, mxY, mxX - mnX, mxY - mnY, (mxX - mnX) * (mxY - mnY)⟩

/-- `calculateBoundingBoxOverlap` (contour.js lines 174-195): bounding-box
intersection-over-union, 0 for empty intersection or nonpositive union. -/
def calculateBoundingBoxOverlap (b1 b2 : BBox) : ℚ :=
  let iMinX := zmax b1.minX b2.minX
  let iMinY := zmax b1.minY b2.minY
  let iMaxX := zmin b1.maxX b2.maxX
  let iMaxY := zmin b1.maxY b2.maxY
  if iMaxX ≤ iMinX ∨ iMaxY ≤ iMinY then 0
  else
    let iArea : ℤ := (iMaxX - iMinX) * (iMaxY - iMinY)
    let unionArea : ℤ := b1.area + b2.area - iArea
    if 0 < unionArea then (iArea : ℚ) / (unionArea : ℚ) else 0

/-- One outer-loop round of the pairing phase of `removeDuplicateContours`
(contour.js lines 109-125): an unpaired `i` is paired with the first
subsequent unpaired `j` whose bounding-box IoU exceeds the hard-coded `0.7`
of line 118 (`this.overlapThreshold` is never consulted). -/
def dedupStep (boxes : List BBox) (n : ℕ) (st : List (ℕ × ℕ) × List ℕ) (i : ℕ) :
    List (ℕ × ℕ) × List ℕ :=
  if i ∈ st.2 then st
  else
    match (List.range' (i + 1) (n - (i + 1))).find?
        (fun j => decide (j ∉ st.2) &&
          decide ((7 : ℚ)/10 < calculateBoundingBoxOverlap
            (boxes.getD i ⟨0, 0, 0, 0, 0, 0, 0⟩) (boxes.getD j ⟨0, 0, 0, 0, 0, 0, 0⟩))) with
    | some j => (st.1 ++ [(i, j)], i :: j :: st.2)
    | none => st

/-- The pairing phase: the final `(pairs, paired)` state after scanning all
indices in order. -/
def dedupState (contours : List Contour) : List (ℕ × ℕ) × List ℕ :=
  (List.range contours.length).foldl
    (dedupStep (contours.map calculateBoundingBox) contours.length) ([], [])

/-- Removal predicate of contour.js lines 128-138: the second member of every
pair, plus every index that never got paired. -/
def dedupRemove (pairs : List (ℕ × ℕ)) (paired : List ℕ) (idx : ℕ) : Prop :=
  idx ∈ pairs.map Prod.snd ∨ idx ∉ paired

instance (pairs : List (ℕ × ℕ)) (paired : List ℕ) (idx : ℕ) :
    Decidable (dedupRemove pairs paired idx) := by
  unfold dedupRemove; infer_instance

/-- `removeDuplicateContours` (contour.js lines 97-147).  Lists of at most one
contour are returned unchanged (lines 98-100); otherwise the contours whose
index is marked for removal are filtered out.  The configuration is available
(as `this` is in the JS method) but, as in the source, not consulted. -/
def removeDuplicateContours (_cfg : TracerConfig) (contours : List Contour) :
    List Contour :=
  if contours.length ≤ 1 then contours
  else
    let st := dedupState contours
    (contours.enum.filter (fun p => decide (¬ dedupRemove st.1 st.2 p.1))).map
      (fun p => p.2)

/-- Squared point-to-segment distance: the square of `perpendicularDistance`
(contour.js lines 331-363).  Every branch of the source returns the square
root of this rational; see the header comment for why comparing squares is an
exact translation. -/
def perpendicularDistanceSq (point lineStart lineEnd : Point) : ℚ :=
  let px : ℚ := point.1
  let py : ℚ := point.2
  let sx : ℚ := lineStart.1
  let sy : ℚ := lineStart.2
  let ex : ℚ := lineEnd.1
  let ey : ℚ := lineEnd.2
  let dx := ex - sx
  let dy := ey - sy
  if dx = 0 ∧ dy = 0 then (px - sx) ^ 2 + (py - sy) ^ 2
  else
    let t := ((px - sx) * dx + (py - sy) * dy) / (dx * dx + dy * dy)
    if t < 0 then (px - sx) ^ 2 + (py - sy) ^ 2
    else if 1 < t then (px - ex) ^ 2 + (py - ey) ^ 2
    else
      let projX := sx + t * dx
      let projY := sy + t * dy
      (px - projX) ^ 2 + (py - projY) ^ 2

/-- `√dsq > t`, expressed on the squared distance `dsq ≥ 0`: true iff `t < 0`
or `dsq > t²`. -/
def sqrtGtQ (dsq t : ℚ) : Bool :=
  if t < 0 then true else decide (t ^ 2 < dsq)

/-- The inner scan of `simplifyRecursive` (contour.js lines 304-315) over a
list of indices, carrying `(maxDistanceSq, maxIndex)`; updates exactly on a
strict increase, so the final index is the first index attaining the maximum
(or the initial sentinel if no distance is positive). -/
def scanAux (points : Contour) (s e : ℕ) : List ℕ → ℚ × ℕ → ℚ × ℕ
  | [], st => st
  | i :: is, st =>
    let d := perpendicularDistanceSq (points.getD i (0, 0))
      (points.getD s (0, 0)) (points.getD e (0, 0))
    if st.1 < d then scanAux points s e is (d, i) else scanAux points s e is st

/-- The `for (i = start+1; i < end; i++)` scan with initial state
`(maxDistance, maxIndex) = (0, start)`. -/
def scanRange (points : Contour) (s e : ℕ) : ℚ × ℕ :=
  scanAux points s e (List.range' (s + 1) (e - (s + 1))) (0, s)

/-- `simplifyRecursive` (contour.js lines 298-322), the Douglas-Peucker
recursion on index ranges, with explicit fuel standing for the call stack
(the JS recursion is unbounded; for tolerance ≥ 0 its depth is below
`e - s`, so any fuel ≥ `e - s` reproduces it exactly).  Returns the kept
interior points in index order. -/
def simplifyRecursive (points : Contour) (tol : ℚ) : ℕ → ℕ → ℕ → Contour
  | 0, _, _ => []
  | fuel + 1, s, e =>
    if e - s ≤ 1 then []
    else
      let st := scanRange points s e
      if sqrtGtQ st.1 tol then
        simplifyRecursive points tol fuel s st.2 ++
          points.getD st.2 (0, 0) :: simplifyRecursive points tol fuel st.2 e
      else []

/-- `simplifyContour` (contour.js lines 292-329): contours of at most two
points are returned as-is; otherwise the first point, the recursively kept
interior points, and the last point. -/
def simplifyContour (contour : Contour) (tolerance : ℚ) : Contour :=
  if contour.length ≤ 2 then contour
  else
    contour.getD 0 (0, 0) ::
      simplifyRecursive contour tolerance contour.length 0 (contour.length - 1) ++
        [contour.getD (contour.length - 1) (0, 0)]

/-- `extractContours` (contour.js lines 10-77).  The boolean records whether
the malformed-input diagnostic (`console.error`, line 25) fired: it does so
exactly when a field of the expected shape is missing or falsy (width or
height 0); nothing checks `data.length` against `width*height`.  Otherwise:
normalize, short-circuit on zero foreground pixels, pad, trace, filter small
contours, simplify with tolerance 2, deduplicate. -/
def extractContours (cfg : TracerConfig) (seg : Segmentation) :
    Bool × List Contour :=
  if seg.width ≠ 0 ∧ seg.height ≠ 0 then
    if personPixelCount seg.data = 0 then (false, [])
    else
      let mask := buildMask seg.data (seg.width * seg.height)
      let paddedMask := addFrameEdgePadding mask seg.width seg.height
      let contours := findContours paddedMask seg.width seg.height
      let filteredContours :=
        (contours.filter (fun c => 10 < c.length)).map (fun c => simplifyContour c 2)
      (false, removeDuplicateContours cfg filteredContours)
  else (true, [])

/-- A renderer-agnostic path command (the spec's "path command stream"); the
JS serializes these as the SVG tokens `M`, `L`, `Q`, `Z`. -/
inductive PathCmd where
  | moveTo (x y : ℚ) : PathCmd
  | lineTo (x y : ℚ) : PathCmd
  | quadTo (cx cy x y : ℚ) : PathCmd
  | close : PathCmd
deriving DecidableEq

/-- `contourToStraightSVGPath` (contour.js lines 385-392): move to the first
point, line to each subsequent point, close.  On an empty contour the JS
throws (`contour[0][0]` on `undefined`), modelled as `none`. -/
def contourToStraightSVGPath (c : Contour) : Option (List PathCmd) :=
  match c with
  | [] => none
  | p :: rest =>
      some (PathCmd.moveTo p.1 p.2 ::
        (rest.map (fun q => PathCmd.lineTo q.1 q.2) ++ [PathCmd.close]))

/-- `contourToQuadraticSVGPath` (contour.js lines 394-422): contours with
fewer than 3 points fall back to straight lines; otherwise move to the first
point, then one quadratic per point with control point `c[(i+1) % n]` and
endpoint the midpoint of `c[(i+1) % n]` and `c[(i+2) % n]`, then close.  (The
JS also computes the unused first midpoint `midX`/`midY`; it never reaches
the output.) -/
def contourToQuadraticSVGPath (c : Contour) : Option (List PathCmd) :=
  if c.length < 3 then contourToStraightSVGPath c
  else
    match c with
    | [] => none
    | p :: _ =>
      some (PathCmd.moveTo p.1 p.2 ::
        ((List.range c.length).map (fun i =>
          let next := c.getD ((i + 1) % c.length) (0, 0)
          let nextNext := c.getD ((i + 2) % c.length) (0, 0)
          PathCmd.quadTo next.1 next.2
            (((next.1 : ℚ) + nextNext.1) / 2) (((next.2 : ℚ) + nextNext.2) / 2))
          ++ [PathCmd.close]))

/-- `contoursToSVGPath` (contour.js lines 365-383): concatenation of the
per-contour paths of every nonempty contour, dispatched on the configured
curve type; the empty list yields the empty stream. -/
def contoursToSVGPath (cfg : TracerConfig) (contours : List Contour) :
    List PathCmd :=
  (contours.filter (fun c => 0 < c.length)).flatMap fun c =>
    (match cfg.curveType with
      | CurveType.quadratic => contourToQuadraticSVGPath c
      | CurveType.straight => contourToStraightSVGPath c).getD []

/-! ## Analysis-level definitions

The following definitions are not part of the embedding itself; they are
restatements used to reason about it (proved equivalent where used). -/

/-- A point strictly inside the one-pixel frame margin of a `w × h` grid. -/
def interiorPt (w h : ℕ) (p : Point) : Prop :=
  1 ≤ p.1 ∧ p.1 ≤ (w : ℤ) - 2 ∧ 1 ≤ p.2 ∧ p.2 ≤ (h : ℤ) - 2

instance (w h : ℕ) (p : Point) : Decidable (interiorPt w h p) := by
  unfold interiorPt; infer_instance

/-- Every in-bounds cell on the outermost ring of the grid reads background. -/
def borderZero (m : Mask) (w h : ℕ) : Prop :=
  ∀ x y : ℤ, 0 ≤ x → x < (w : ℤ) → 0 ≤ y → y < (h : ℤ) →
    (x = 0 ∨ x = (w : ℤ) - 1 ∨ y = 0 ∨ y = (h : ℤ) - 1) →
    maskGet m (y * w + x) = some 0

/-- Two masks read identically on every cell index below `n`. -/
def maskAgree (m1 m2 : Mask) (n : ℕ) : Prop :=
  ∀ i : ℤ, 0 ≤ i → i < (n : ℤ) → maskGet m1 i = maskGet m2 i

/-- The interior slice of `points` strictly between indices `s` and `e`. -/
def sliceMid (points : Contour) (s e : ℕ) : Contour :=
  (points.drop (s + 1)).take (e - s - 1)

/-- First strict argmax scan over a list of points, carrying the running
maximum (initially 0), the next position, and the best position so far:
the value-level counterpart of `scanAux`. -/
def bestAux (f : Point → ℚ) : List Point → ℕ → ℚ × Option ℕ → ℚ × Option ℕ
  | [], _, st => st
  | x :: xs, i, st =>
    if st.1 < f x then bestAux f xs (i + 1) (f x, some i)
    else bestAux f xs (i + 1) st

/-- First strict argmax (with its value) of `f` over a list, starting from
maximum 0 and no index. -/
def bestIdx (f : Point → ℚ) (l : List Point) : ℚ × Option ℕ :=
  bestAux f l 0 (0, none)

/-- Value-level Douglas-Peucker: the kept interior points of the segment with
endpoints `a`, `b` and interior candidates `mid`.  Equals the index-level
`simplifyRecursive` for nonnegative tolerance (`simplifyRecursive_eq_dpRun`). -/
def dpRun (tol : ℚ) (a b : Point) (mid : List Point) : List Point :=
  match (bestIdx (fun p => perpendicularDistanceSq p a b) mid).2 with
  | some k =>
    if hk : k < mid.length then
      if sqrtGtQ (bestIdx (fun p => perpendicularDistanceSq p a b) mid).1 tol then
        dpRun tol a (mid.getD k (0, 0)) (mid.take k) ++
          mid.getD k (0, 0) :: dpRun tol (mid.getD k (0, 0)) b (mid.drop (k + 1))
      else []
    else []
  | none => []
termination_by mid.length
decreasing_by
  · simpa [List.length_take] using hk
  · simp only [List.length_drop]; omega

/-! ## Concrete inputs used by counterexamples and witnesses -/

/-- A 6×6 frame whose data is all-foreground (36 entries). -/
def segFull6 : Segmentation := ⟨6, 6, List.replicate 36 1⟩

/-- A 6×6 frame with only 35 data entries (shorter than `width*height`),
all foreground. -/
def segShort6 : Segmentation := ⟨6, 6, List.replicate 35 1⟩

/-- A triangular test contour. -/
def triContour : Contour := [((0 : ℤ), (0 : ℤ)), (10, 0), (5, 10)]

/-- A small contour used as a dedup singleton. -/
def loneContour : Contour := [((0 : ℤ), (0 : ℤ)), (3, 0), (3, 3)]

/-- Contour with bounding box `[0,2] × [0,2]` (area 4). -/
def boxContourA : Contour := [((0 : ℤ), (0 : ℤ)), (2, 0), (2, 2)]

/-- Contour with bounding box `[0,2] × [0,4]` (area 8); its box IoU with
`boxContourA` is `4 / (4 + 8 - 4) = 1/2`. -/
def boxContourB : Contour := [((0 : ℤ), (0 : ℤ)), (2, 0), (2, 4)]

/-- Contour whose bounding box `[0,1]²` is disjoint from `farContour`'s. -/
def nearContour : Contour := [((0 : ℤ), (0 : ℤ)), (1, 0), (1, 1)]

/-- Contour with bounding box `[5,6]²`. -/
def farContour : Contour := [((5 : ℤ), (5 : ℤ)), (6, 5), (6, 6)]

/-- A tracer configured with a low overlap threshold of 0.1. -/
def lowOverlapConfig : TracerConfig :=
  ⟨1/2, CurveType.quadratic, 1/2, true, 1/10⟩

/-! ## Helper lemmas -/

lemma traceLoop_length_le (m : Mask) (w h : ℕ) (sx sy : ℤ) :
    ∀ (fuel : ℕ) (x y : ℤ) (dir : ℕ) (visited : List ℤ) (acc : Contour),
      (traceLoop m w h sx sy fuel x y dir visited acc).1.length ≤
        acc.length + (fuel + 1) := by
  intro fuel
  induction fuel with
  | zero =>
    intro x y dir visited acc
    simp [traceLoop]
  | succ f ih =>
    intro x y dir visited acc
    rw [traceLoop]
    rcases findNext m w h x y dir with _ | ⟨nx, ny, ndir⟩
    · simp
    · simp only []
      by_cases hs : nx = sx ∧ ny = sy
      · simp [hs]
      · rw [if_neg hs]
        have := ih nx ny ndir ((y * w + x) :: visited) (acc ++ [(x, y)])
        simp only [List.length_append, List.length_cons, List.length_nil] at this ⊢
        omega

lemma personPixelCount_eq_zero {data : List ℚ}
    (hz : ∀ v ∈ data, classifyPixel v = 0) : personPixelCount data = 0 := by
  unfold personPixelCount
  rw [List.length_eq_zero, List.filter_eq_nil_iff]
  intro v hv
  simp [hz v hv]

lemma overwriteBorder_length (w h : ℕ) :
    ∀ (m : Mask) (i : ℕ), (overwriteBorder w h i m).length = m.length
  | [], _ => rfl
  | _ :: rest, i => by
    simp [overwriteBorder, overwriteBorder_length w h rest]

lemma overwriteBorder_getD (w h : ℕ) :
    ∀ (m : Mask) (i j : ℕ), j < m.length →
      (overwriteBorder w h i m).getD j none =
        if isBorderIdx w h (i + j) then some 0 else m.getD j none
  | [], _, j, hj => by simp at hj
  | v :: rest, i, 0, _ => by simp [overwriteBorder]
  | v :: rest, i, j + 1, hj => by
    have hrec := overwriteBorder_getD w h rest (i + 1) j (by simpa using hj)
    have harith : i + 1 + j = i + (j + 1) := by omega
    simpa [overwriteBorder, harith] using hrec

lemma cell_index_lt {w h x y : ℕ} (hx : x < w) (hy : y < h) :
    y * w + x < w * h := by
  have h1 : y * w + x < (y + 1) * w := by
    have : (y + 1) * w = y * w + w := by ring
    omega
  have h2 : (y + 1) * w ≤ h * w := Nat.mul_le_mul_right w hy
  have h3 : h * w = w * h := Nat.mul_comm h w
  omega

lemma isBorderIdx_cell {w h x y : ℕ} (hx : x < w) (hy : y < h) :
    (isBorderIdx w h (y * w + x) = true) ↔
      (x = 0 ∨ x = w - 1 ∨ y = 0 ∨ y = h - 1) := by
  have h0 : 0 < w := Nat.lt_of_le_of_lt (Nat.zero_le x) hx
  have hmod : (y * w + x) % w = x := by
    rw [Nat.add_comm, Nat.add_mul_mod_self_right, Nat.mod_eq_of_lt hx]
  have hdiv : (y * w + x) / w = y := by
    rw [Nat.add_comm, Nat.add_mul_div_right x y h0, Nat.div_eq_of_lt hx]
    omega
  simp only [isBorderIdx, hmod, hdiv, Bool.and_eq_true, Bool.or_eq_true,
    decide_eq_true_eq]
  constructor
  · rintro ⟨-, hb⟩; tauto
  · intro hb; exact ⟨cell_index_lt hx hy, by tauto⟩

lemma mem_enumFrom_getD {α : Type} (d : α) :
    ∀ (l : List α) (n : ℕ) (p : ℕ × α), p ∈ List.enumFrom n l →
      n ≤ p.1 ∧ p.1 - n < l.length ∧ l.getD (p.1 - n) d = p.2
  | [], _, p, hp => by simp [List.enumFrom] at hp
  | a :: l, n, p, hp => by
    rcases (by simpa [List.enumFrom] using hp :
        p = (n, a) ∨ p ∈ List.enumFrom (n + 1) l) with h | h
    · subst h; simp
    · have := mem_enumFrom_getD d l (n + 1) p h
      obtain ⟨h1, h2, h3⟩ := this
      refine ⟨by omega, by simp; omega, ?_⟩
      have hsub : p.1 - n = (p.1 - (n + 1)) + 1 := by omega
      rw [hsub, List.getD_cons_succ, h3]

lemma mem_enum_getD {α : Type} (d : α) (l : List α) (p : ℕ × α)
    (hp : p ∈ l.enum) : p.1 < l.length ∧ l.getD p.1 d = p.2 := by
  have := mem_enumFrom_getD d l 0 p hp
  simpa using this

/-! ## Claim theorems (first group) -/

/-- C6: a single boundary trace always terminates with a point sequence of
at most `maxSteps + 1 = 5001` points, stopping at the starting pixel or at
the hard step cap, whichever comes first. -/
theorem claim_C6_trace_bounded (m : Mask) (w h : ℕ) (sx sy : ℤ)
    (visited : List ℤ) :
    (traceContour m w h sx sy visited).1.length ≤ 5000 + 1 := by
  have := traceLoop_length_le m w h sx sy 4999 sx sy 0 visited []
  simp only [traceContour]
  simp at this
  omega

/-- C7: a mask in which no pixel classifies as foreground yields the empty
contour set with no diagnostic, and the empty contour set synthesizes to the
empty path command stream. -/
theorem claim_C7_all_background (cfg : TracerConfig) (seg : Segmentation)
    (hw : seg.width ≠ 0) (hh : seg.height ≠ 0)
    (hz : ∀ v ∈ seg.data, classifyPixel v = 0) :
    extractContours cfg seg = (false, []) ∧
      contoursToSVGPath cfg (extractContours cfg seg).2 = [] := by
  have hp : personPixelCount seg.data = 0 := personPixelCount_eq_zero hz
  have h1 : extractContours cfg seg = (false, []) := by
    unfold extractContours
    rw [if_pos ⟨hw, hh⟩, if_pos hp]
  exact ⟨h1, by rw [h1]; rfl⟩

/-- Witness for C7 at a concrete all-zero 3×3 input. -/
theorem claim_C7_witness :
    extractContours defaultTracerConfig ⟨3, 3, List.replicate 9 0⟩ = (false, []) ∧
      contoursToSVGPath defaultTracerConfig
        (extractContours defaultTracerConfig ⟨3, 3, List.replicate 9 0⟩).2 = [] :=
  claim_C7_all_background defaultTracerConfig ⟨3, 3, List.replicate 9 0⟩
    (by decide) (by decide) (by decide)

/-- C8: edge padding keeps the mask's dimensions, forces every cell on the
outermost ring to background 0, and leaves every interior cell equal to the
corresponding input cell (the input itself is a separate, unmodified value). -/
theorem claim_C8_edge_padding (m : Mask) (w h : ℕ) (hlen : m.length = w * h) :
    (addFrameEdgePadding m w h).length = m.length ∧
      ∀ x y : ℕ, x < w → y < h →
        (addFrameEdgePadding m w h).getD (y * w + x) none =
          if x = 0 ∨ x = w - 1 ∨ y = 0 ∨ y = h - 1 then some 0
          else m.getD (y * w + x) none := by
  constructor
  · exact overwriteBorder_length w h m 0
  · intro x y hx hy
    have hj : y * w + x < m.length := by rw [hlen]; exact cell_index_lt hx hy
    have := overwriteBorder_getD w h m 0 (y * w + x) hj
    rw [addFrameEdgePadding, this]
    by_cases hb : x = 0 ∨ x = w - 1 ∨ y = 0 ∨ y = h - 1
    · rw [if_pos hb, if_pos]
      simpa using (isBorderIdx_cell hx hy).2 hb
    · rw [if_neg hb, if_neg]
      intro hcontra
      exact hb ((isBorderIdx_cell hx hy).1 (by simpa using hcontra))

/-- Witness for C8 on a concrete all-foreground 3×3 mask. -/
theorem claim_C8_witness :
    (addFrameEdgePadding (List.replicate 9 (some 1)) 3 3).length = 9 ∧
      (addFrameEdgePadding (List.replicate 9 (some 1)) 3 3).getD 4 none = some 1 := by
  have H := claim_C8_edge_padding (List.replicate 9 (some 1)) 3 3 (by decide)
  refine ⟨by simpa using H.1, ?_⟩
  have h2 := H.2 1 1 (by decide) (by decide)
  simpa using h2

/-- C9: straight synthesis of the triangle `[(0,0),(10,0),(5,10)]` is exactly
move-line-line-close; quadratic synthesis of it starts with move-to `(0,0)`
and ends with close; and quadratic synthesis of any contour with fewer than
3 points equals straight synthesis. -/
theorem claim_C9_path_synthesis :
    contourToStraightSVGPath triContour =
      some [PathCmd.moveTo 0 0, PathCmd.lineTo 10 0, PathCmd.lineTo 5 10,
        PathCmd.close] ∧
    ((contourToQuadraticSVGPath triContour).getD []).head? =
      some (PathCmd.moveTo 0 0) ∧
    ((contourToQuadraticSVGPath triContour).getD []).getLast? =
      some PathCmd.close ∧
    ∀ c : Contour, c.length < 3 →
      contourToQuadraticSVGPath c = contourToStraightSVGPath c := by
  refine ⟨by decide, by decide, by decide, ?_⟩
  intro c hc
  simp [contourToQuadraticSVGPath, hc]

/-- Witness for C9's short-contour clause at the one-point contour `[(1,2)]`. -/
theorem claim_C9_witness :
    contourToQuadraticSVGPath [((1 : ℤ), (2 : ℤ))] =
      contourToStraightSVGPath [((1 : ℤ), (2 : ℤ))] :=
  claim_C9_path_synthesis.2.2.2 [((1 : ℤ), (2 : ℤ))] (by decide)

/-- C3 (code bug evidence): two contours whose bounding-box IoU is `1/2` —
well above the configured overlap threshold `0.1` — are nevertheless both
dropped, because `removeDuplicateContours` compares against the hard-coded
`0.7` of contour.js line 118 and never reads `this.overlapThreshold`. -/
theorem claim_C3_threshold_ignored :
    calculateBoundingBoxOverlap (calculateBoundingBox boxContourA)
        (calculateBoundingBox boxContourB) = 1/2 ∧
      lowOverlapConfig.overlapThreshold < 1/2 ∧
      removeDuplicateContours lowOverlapConfig [boxContourA, boxContourB] = [] := by
  with_unfolding_all decide

/-- C1 (counterexample): an input list with exactly one contour is returned
unchanged — not emptied — because of the `length ≤ 1` early return at
contour.js lines 98-100. -/
theorem claim_C1_counterexample :
    removeDuplicateContours defaultTracerConfig [loneContour] = [loneContour] ∧
      removeDuplicateContours defaultTracerConfig [loneContour] ≠ [] := by
  with_unfolding_all decide

/-- C1 (amended): the `length ≤ 1` early return keeps a singleton input
unchanged; for inputs of at least two contours every survivor is the value at
a paired index (so every unpaired contour occurrence is dropped), and two
contours with zero bounding-box IoU are both dropped. -/
theorem claim_C1_unpaired_dropped (cfg : TracerConfig) :
    (∀ c : Contour, removeDuplicateContours cfg [c] = [c]) ∧
    (∀ cs : List Contour, 2 ≤ cs.length →
      ∀ x ∈ removeDuplicateContours cfg cs,
        ∃ i, i ∈ (dedupState cs).2 ∧ cs.getD i [] = x) ∧
    (∀ c1 c2 : Contour,
      calculateBoundingBoxOverlap (calculateBoundingBox c1)
        (calculateBoundingBox c2) = 0 →
      removeDuplicateContours cfg [c1, c2] = []) := by
  refine ⟨?_, ?_, ?_⟩
  · intro c
    simp [removeDuplicateContours]
  · intro cs h2 x hx
    unfold removeDuplicateContours at hx
    rw [if_neg (by omega)] at hx
    simp only [List.mem_map, List.mem_filter] at hx
    obtain ⟨p, ⟨hpe, hpq⟩, rfl⟩ := hx
    have hgd := mem_enum_getD [] cs p hpe
    refine ⟨p.1, ?_, hgd.2⟩
    have hnr : ¬ dedupRemove (dedupState cs).1 (dedupState cs).2 p.1 :=
      of_decide_eq_true hpq
    unfold dedupRemove at hnr
    push_neg at hnr
    exact hnr.2
  · intro c1 c2 hov
    have h710 : ¬ ((7 : ℚ)/10 < calculateBoundingBoxOverlap
        (calculateBoundingBox c1) (calculateBoundingBox c2)) := by
      rw [hov]; norm_num
    have hst : dedupState [c1, c2] = ([], []) := by
      unfold dedupState dedupStep
      simp [List.range_succ, List.range', h710]
    unfold removeDuplicateContours
    rw [if_neg (by simp)]
    simp [hst, dedupRemove]

/-- Witness for C1's two-disjoint-contours clause at concrete contours. -/
theorem claim_C1_witness :
    removeDuplicateContours defaultTracerConfig [nearContour, farContour] = [] :=
  (claim_C1_unpaired_dropped defaultTracerConfig).2.2 nearContour farContour
    (by with_unfolding_all decide)

/-- C2 (counterexample): a 6×6 input whose data array has only 35 entries
(shorter than `width*height = 36`) raises no diagnostic and produces a
non-empty contour set — the length mismatch is never detected. -/
theorem claim_C2_counterexample :
    (extractContours defaultTracerConfig segShort6).1 = false ∧
      (extractContours defaultTracerConfig segShort6).2 ≠ [] := by
  with_unfolding_all decide

lemma scanAux_state (points : Contour) (s e : ℕ) :
    ∀ (is : List ℕ) (st : ℚ × ℕ),
      scanAux points s e is st = st ∨
      ((scanAux points s e is st).2 ∈ is ∧ st.1 < (scanAux points s e is st).1)
  | [], st => Or.inl rfl
  | i :: is, st => by
    rw [scanAux]
    by_cases hd : st.1 < perpendicularDistanceSq (points.getD i (0, 0))
        (points.getD s (0, 0)) (points.getD e (0, 0))
    · rw [if_pos hd]
      rcases scanAux_state points s e is
          (perpendicularDistanceSq (points.getD i (0, 0))
            (points.getD s (0, 0)) (points.getD e (0, 0)), i) with h1 | h1
      · right
        rw [h1]
        exact ⟨List.mem_cons_self i is, hd⟩
      · right
        exact ⟨List.mem_cons_of_mem i h1.1, lt_trans hd h1.2⟩
    · rw [if_neg hd]
      rcases scanAux_state points s e is st with h1 | h1
      · exact Or.inl h1
      · exact Or.inr ⟨List.mem_cons_of_mem i h1.1, h1.2⟩

lemma sqrtGtQ_pos {md tol : ℚ} (htol : 0 ≤ tol) (hgt : sqrtGtQ md tol = true) :
    0 < md := by
  unfold sqrtGtQ at hgt
  rw [if_neg (not_lt.2 htol)] at hgt
  have h2 := of_decide_eq_true hgt
  exact lt_of_le_of_lt (sq_nonneg tol) h2

lemma scanRange_pick {points : Contour} {s e : ℕ} {tol : ℚ} (htol : 0 ≤ tol)
    (hgt : sqrtGtQ (scanRange points s e).1 tol = true) :
    s + 1 ≤ (scanRange points s e).2 ∧ (scanRange points s e).2 < e := by
  have hr : scanRange points s e =
      scanAux points s e (List.range' (s + 1) (e - (s + 1))) (0, s) := rfl
  have h0 : 0 < (scanRange points s e).1 := sqrtGtQ_pos htol hgt
  rcases scanAux_state points s e (List.range' (s + 1) (e - (s + 1))) (0, s)
    with h1 | h1
  · exfalso
    rw [hr, h1] at h0
    exact lt_irrefl 0 h0
  · rw [hr]
    have := List.mem_range'_1.1 h1.1
    omega

lemma scanRange_snd (points : Contour) (s e : ℕ) :
    (scanRange points s e).2 = s ∨
      (s + 1 ≤ (scanRange points s e).2 ∧ (scanRange points s e).2 < e) := by
  have hr : scanRange points s e =
      scanAux points s e (List.range' (s + 1) (e - (s + 1))) (0, s) := rfl
  rcases scanAux_state points s e (List.range' (s + 1) (e - (s + 1))) (0, s)
    with h1 | h1
  · left
    rw [hr, h1]
  · right
    rw [hr]
    have := List.mem_range'_1.1 h1.1
    omega

lemma simplifyRecursive_length (points : Contour) (tol : ℚ) (htol : 0 ≤ tol) :
    ∀ (fuel s e : ℕ),
      (simplifyRecursive points tol fuel s e).length ≤ e - s - 1 := by
  intro fuel
  induction fuel with
  | zero => intro s e; simp [simplifyRecursive]
  | succ f ih =>
    intro s e
    rw [simplifyRecursive]
    by_cases h1 : e - s ≤ 1
    · rw [if_pos h1]; simp
    · rw [if_neg h1]
      by_cases hgt : sqrtGtQ (scanRange points s e).1 tol = true
      · rw [if_pos hgt]
        have hpick := scanRange_pick htol hgt
        have ha := ih s (scanRange points s e).2
        have hb := ih (scanRange points s e).2 e
        simp only [List.length_append, List.length_cons]
        omega
      · rw [if_neg hgt]; simp

lemma simplifyRecursive_trivial (points : Contour) (tol : ℚ)
    (fuel s e : ℕ) (h : e - s ≤ 1) : simplifyRecursive points tol fuel s e = [] := by
  cases fuel with
  | zero => rw [simplifyRecursive]
  | succ f => rw [simplifyRecursive, if_pos h]

lemma getD_mem_of_lt {α : Type} (l : List α) (i : ℕ) (d : α)
    (h : i < l.length) : l.getD i d ∈ l := by
  rw [List.getD_eq_getElem l d h]
  exact List.getElem_mem h

lemma simplifyRecursive_subset (points : Contour) (tol : ℚ) :
    ∀ (fuel s e : ℕ), s < e → e < points.length →
      ∀ x ∈ simplifyRecursive points tol fuel s e, x ∈ points := by
  intro fuel
  induction fuel with
  | zero => intro s e _ _ x hx; simp [simplifyRecursive] at hx
  | succ f ih =>
    intro s e hse he x hx
    rw [simplifyRecursive] at hx
    by_cases h1 : e - s ≤ 1
    · rw [if_pos h1] at hx; simp at hx
    · rw [if_neg h1] at hx
      by_cases hgt : sqrtGtQ (scanRange points s e).1 tol = true
      · rw [if_pos hgt] at hx
        have hmi : (scanRange points s e).2 < e := by
          rcases scanRange_snd points s e with h2 | h2
          · omega
          · omega
        rcases List.mem_append.1 hx with hxa | hxb
        · rcases scanRange_snd points s e with h2 | h2
          · rw [h2] at hxa
            rw [simplifyRecursive_trivial points tol f s s (by omega)] at hxa
            simp at hxa
          · exact ih s (scanRange points s e).2 (by omega) (by omega) x hxa
        · rcases List.mem_cons.1 hxb with hxc | hxd
          · subst hxc
            exact getD_mem_of_lt points (scanRange points s e).2 (0, 0) (by omega)
          · rcases scanRange_snd points s e with h2 | h2
            · rw [h2] at hxd
              exact ih s e hse he x hxd
            · exact ih (scanRange points s e).2 e (by omega) he x hxd
      · rw [if_neg hgt] at hx; simp at hx

lemma head?_eq_getD {α : Type} (l : List α) (d : α) (h : l ≠ []) :
    l.head? = some (l.getD 0 d) := by
  cases l with
  | nil => exact absurd rfl h
  | cons a t => simp

lemma getLast?_eq_getD {α : Type} (l : List α) (d : α) (h : l ≠ []) :
    l.getLast? = some (l.getD (l.length - 1) d) := by
  have hlen : l.length - 1 < l.length := by
    cases l with
    | nil => exact absurd rfl h
    | cons a t => simp
  rw [List.getLast?_eq_getElem?, List.getElem?_eq_getElem hlen,
    List.getD_eq_getElem l d hlen]

/-- C4: for nonnegative tolerance (negative tolerances make the JS recursion
overflow the stack, so the function only returns on this domain), the
simplified contour has at most as many points as the original, every retained
point belongs to the original, and the first and last points are retained. -/
theorem claim_C4_simplify_structure (contour : Contour) (tol : ℚ)
    (htol : 0 ≤ tol) :
    (simplifyContour contour tol).length ≤ contour.length ∧
    (∀ p ∈ simplifyContour contour tol, p ∈ contour) ∧
    (simplifyContour contour tol).head? = contour.head? ∧
    (simplifyContour contour tol).getLast? = contour.getLast? := by
  by_cases hle : contour.length ≤ 2
  · rw [simplifyContour, if_pos hle]
    exact ⟨le_refl _, fun p hp => hp, rfl, rfl⟩
  · have hn : 3 ≤ contour.length := by omega
    have hne : contour ≠ [] := by
      intro hcon
      rw [hcon] at hn
      simp at hn
    rw [simplifyContour, if_neg hle]
    refine ⟨?_, ?_, ?_, ?_⟩
    · have hrec := simplifyRecursive_length contour tol htol contour.length 0
        (contour.length - 1)
      simp only [List.length_cons, List.length_append, List.length_nil] at hrec ⊢
      omega
    · intro p hp
      rcases List.mem_cons.1 hp with h1 | h1
      · subst h1
        exact getD_mem_of_lt contour 0 (0, 0) (by omega)
      · rcases List.mem_append.1 h1 with h2 | h2
        · exact simplifyRecursive_subset contour tol contour.length 0
            (contour.length - 1) (by omega) (by omega) p h2
        · have h3 := List.mem_singleton.1 h2
          subst h3
          exact getD_mem_of_lt contour (contour.length - 1) (0, 0) (by omega)
    · rw [head?_eq_getD contour (0, 0) hne]
      rfl
    · rw [List.getLast?_concat, getLast?_eq_getD contour (0, 0) hne]

/-- Witness for C4 at the triangle contour with the pipeline tolerance 2. -/
theorem claim_C4_witness :
    (simplifyContour triContour 2).length ≤ triContour.length ∧
      (simplifyContour triContour 2).head? = triContour.head? :=
  ⟨(claim_C4_simplify_structure triContour 2 (by norm_num)).1,
   (claim_C4_simplify_structure triContour 2 (by norm_num)).2.2.1⟩

lemma bestAux_append (f : Point → ℚ) :
    ∀ (l1 l2 : List Point) (i : ℕ) (st : ℚ × Option ℕ),
      bestAux f (l1 ++ l2) i st = bestAux f l2 (i + l1.length) (bestAux f l1 i st)
  | [], l2, i, st => by simp [bestAux]
  | x :: t, l2, i, st => by
    rw [List.cons_append, bestAux, bestAux]
    by_cases hd : st.1 < f x
    · rw [if_pos hd, if_pos hd, bestAux_append f t l2 (i + 1)]
      congr 1
      simp
      omega
    · rw [if_neg hd, if_neg hd, bestAux_append f t l2 (i + 1)]
      congr 1
      simp
      omega

lemma bestAux_no_update (f : Point → ℚ) :
    ∀ (l : List Point) (i : ℕ) (st : ℚ × Option ℕ),
      (∀ x ∈ l, f x ≤ st.1) → bestAux f l i st = st
  | [], _, _, _ => rfl
  | x :: t, i, st, h => by
    rw [bestAux, if_neg (not_lt.2 (h x (List.mem_cons_self x t)))]
    exact bestAux_no_update f t (i + 1) st
      (fun y hy => h y (List.mem_cons_of_mem x hy))

lemma bestAux_lt_bound (f : Point → ℚ) {c : ℚ} :
    ∀ (l : List Point) (i : ℕ) (st : ℚ × Option ℕ),
      (∀ x ∈ l, f x < c) → st.1 < c → (bestAux f l i st).1 < c
  | [], _, _, _, hst => hst
  | x :: t, i, st, h, hst => by
    rw [bestAux]
    by_cases hd : st.1 < f x
    · rw [if_pos hd]
      exact bestAux_lt_bound f t (i + 1) _
        (fun y hy => h y (List.mem_cons_of_mem x hy)) (h x (List.mem_cons_self x t))
    · rw [if_neg hd]
      exact bestAux_lt_bound f t (i + 1) st
        (fun y hy => h y (List.mem_cons_of_mem x hy)) hst

lemma bestIdx_shape (f : Point → ℚ) (L : List Point) (p : Point) (R : List Point)
    (hL : ∀ x ∈ L, f x < f p) (hR : ∀ x ∈ R, f x ≤ f p) (hp : 0 < f p) :
    bestIdx f (L ++ p :: R) = (f p, some L.length) := by
  unfold bestIdx
  rw [bestAux_append]
  have h1 : (bestAux f L 0 (0, none)).1 < f p := bestAux_lt_bound f L 0 (0, none) hL hp
  rw [bestAux, if_pos h1]
  rw [bestAux_no_update f R (0 + L.length + 1) (f p, some (0 + L.length)) hR]
  simp

lemma bestAux_spec (f : Point → ℚ) :
    ∀ (l : List Point) (i : ℕ) (st : ℚ × Option ℕ),
      (bestAux f l i st = st ∧ ∀ x ∈ l, f x ≤ st.1) ∨
      (∃ k, k < l.length ∧
        (bestAux f l i st).2 = some (i + k) ∧
        (bestAux f l i st).1 = f (l.getD k (0, 0)) ∧
        st.1 < (bestAux f l i st).1 ∧
        (∀ j, j < k → f (l.getD j (0, 0)) < (bestAux f l i st).1) ∧
        (∀ j, k < j → j < l.length → f (l.getD j (0, 0)) ≤ (bestAux f l i st).1))
  | [], i, st => Or.inl ⟨rfl, by simp⟩
  | x :: t, i, st => by
    rw [bestAux]
    by_cases hd : st.1 < f x
    · rw [if_pos hd]
      rcases bestAux_spec f t (i + 1) (f x, some i) with ⟨h1, h2⟩ |
        ⟨k, hk, hb2, hb1, hlt, hpre, hsuf⟩
      · right
        refine ⟨0, by simp, by rw [h1]; simp, by rw [h1]; simp,
          by rw [h1]; exact hd, ?_, ?_⟩
        · intro j hj; omega
        · intro j hj0 hjl
          rw [h1]
          obtain ⟨j', rfl⟩ : ∃ j', j = j' + 1 := ⟨j - 1, by omega⟩
          rw [List.getD_cons_succ]
          simp only [List.length_cons] at hjl
          exact h2 _ (getD_mem_of_lt t j' (0, 0) (by omega))
      · right
        refine ⟨k + 1, ?_, ?_, ?_, ?_, ?_, ?_⟩
        · simp only [List.length_cons]; omega
        · rw [hb2]; congr 1; omega
        · rw [hb1, List.getD_cons_succ]
        · exact lt_trans hd hlt
        · intro j hj
          cases j with
          | zero =>
            rw [List.getD_cons_zero]
            simpa using hlt
          | succ j' =>
            rw [List.getD_cons_succ]
            exact hpre j' (by omega)
        · intro j hj0 hjl
          cases j with
          | zero => omega
          | succ j' =>
            rw [List.getD_cons_succ]
            simp only [List.length_cons] at hjl
            exact hsuf j' (by omega) (by omega)
    · rw [if_neg hd]
      rcases bestAux_spec f t (i + 1) st with ⟨h1, h2⟩ |
        ⟨k, hk, hb2, hb1, hlt, hpre, hsuf⟩
      · left
        refine ⟨h1, ?_⟩
        intro y hy
        rcases List.mem_cons.1 hy with h3 | h3
        · subst h3; exact not_lt.1 hd
        · exact h2 y h3
      · right
        refine ⟨k + 1, ?_, ?_, ?_, ?_, ?_, ?_⟩
        · simp only [List.length_cons]; omega
        · rw [hb2]; congr 1; omega
        · rw [hb1, List.getD_cons_succ]
        · exact hlt
        · intro j hj
          cases j with
          | zero =>
            rw [List.getD_cons_zero]
            exact lt_of_le_of_lt (not_lt.1 hd) hlt
          | succ j' =>
            rw [List.getD_cons_succ]
            exact hpre j' (by omega)
        · intro j hj0 hjl
          cases j with
          | zero => omega
          | succ j' =>
            rw [List.getD_cons_succ]
            simp only [List.length_cons] at hjl
            exact hsuf j' (by omega) (by omega)

lemma dpRun_nil (tol : ℚ) (a b : Point) : dpRun tol a b [] = [] := by
  rw [dpRun]
  rfl

lemma dpRun_none {tol : ℚ} {a b : Point} {mid : List Point}
    (h : (bestIdx (fun q => perpendicularDistanceSq q a b) mid).2 = none) :
    dpRun tol a b mid = [] := by
  rw [dpRun, h]

lemma dpRun_some_oob {tol : ℚ} {a b : Point} {mid : List Point} {k : ℕ}
    (h : (bestIdx (fun q => perpendicularDistanceSq q a b) mid).2 = some k)
    (hk : ¬ k < mid.length) :
    dpRun tol a b mid = [] := by
  rw [dpRun, h]
  dsimp only
  rw [dif_neg hk]

lemma dpRun_some_not_gt {tol : ℚ} {a b : Point} {mid : List Point} {k : ℕ}
    (h : (bestIdx (fun q => perpendicularDistanceSq q a b) mid).2 = some k)
    (hk : k < mid.length)
    (hgt : ¬ sqrtGtQ (bestIdx (fun q => perpendicularDistanceSq q a b) mid).1 tol
      = true) :
    dpRun tol a b mid = [] := by
  rw [dpRun, h]
  dsimp only
  rw [dif_pos hk, if_neg hgt]

lemma dpRun_some_gt {tol : ℚ} {a b : Point} {mid : List Point} {k : ℕ}
    (h : (bestIdx (fun q => perpendicularDistanceSq q a b) mid).2 = some k)
    (hk : k < mid.length)
    (hgt : sqrtGtQ (bestIdx (fun q => perpendicularDistanceSq q a b) mid).1 tol
      = true) :
    dpRun tol a b mid =
      dpRun tol a (mid.getD k (0, 0)) (mid.take k) ++
        mid.getD k (0, 0) :: dpRun tol (mid.getD k (0, 0)) b (mid.drop (k + 1)) := by
  rw [dpRun, h]
  dsimp only
  rw [dif_pos hk, if_pos hgt]

lemma mem_take_exists {α : Type} {l : List α} {n : ℕ} {x : α} (d : α)
    (h : x ∈ l.take n) : ∃ j, j < n ∧ j < l.length ∧ l.getD j d = x := by
  obtain ⟨j, hj, hget⟩ := List.mem_iff_getElem.1 h
  have hj' := hj
  simp only [List.length_take] at hj'
  have hjlen : j < l.length := by omega
  have hjn : j < n := by omega
  refine ⟨j, hjn, hjlen, ?_⟩
  rw [List.getD_eq_getElem l d hjlen]
  rw [List.getElem_take] at hget
  exact hget

lemma mem_drop_exists {α : Type} {l : List α} {n : ℕ} {x : α} (d : α)
    (h : x ∈ l.drop n) : ∃ j, n + j < l.length ∧ l.getD (n + j) d = x := by
  obtain ⟨j, hj, hget⟩ := List.mem_iff_getElem.1 h
  have hj' := hj
  simp only [List.length_drop] at hj'
  have hjlen : n + j < l.length := by omega
  refine ⟨j, hjlen, ?_⟩
  rw [List.getD_eq_getElem l d hjlen]
  rw [List.getElem_drop] at hget
  exact hget

lemma dpRun_subset (tol : ℚ) :
    ∀ (N : ℕ) (mid : List Point) (a b : Point), mid.length ≤ N →
      ∀ x ∈ dpRun tol a b mid, x ∈ mid := by
  intro N
  induction N with
  | zero =>
    intro mid a b hlen x hx
    have hm : mid = [] := List.length_eq_zero.1 (by omega)
    subst hm
    rw [dpRun_nil] at hx
    simp at hx
  | succ N ih =>
    intro mid a b hlen x hx
    cases hb : (bestIdx (fun q => perpendicularDistanceSq q a b) mid).2 with
    | none =>
      rw [dpRun_none hb] at hx
      simp at hx
    | some k =>
      by_cases hk : k < mid.length
      · by_cases hgt : sqrtGtQ
            (bestIdx (fun q => perpendicularDistanceSq q a b) mid).1 tol = true
        · rw [dpRun_some_gt hb hk hgt] at hx
          rcases List.mem_append.1 hx with h1 | h1
          · exact List.mem_of_mem_take
              (ih (mid.take k) a (mid.getD k (0, 0))
                (by simp only [List.length_take]; omega) x h1)
          · rcases List.mem_cons.1 h1 with h2 | h2
            · subst h2
              exact getD_mem_of_lt mid k (0, 0) hk
            · exact List.mem_of_mem_drop
                (ih (mid.drop (k + 1)) (mid.getD k (0, 0)) b
                  (by simp only [List.length_drop]; omega) x h2)
        · rw [dpRun_some_not_gt hb hk hgt] at hx
          simp at hx
      · rw [dpRun_some_oob hb hk] at hx
        simp at hx

lemma bestIdx_some_facts {f : Point → ℚ} {mid : List Point} {k : ℕ}
    (hb : (bestIdx f mid).2 = some k) :
    k < mid.length ∧
    (bestIdx f mid).1 = f (mid.getD k (0, 0)) ∧
    0 < (bestIdx f mid).1 ∧
    (∀ j, j < k → f (mid.getD j (0, 0)) < (bestIdx f mid).1) ∧
    (∀ j, k < j → j < mid.length → f (mid.getD j (0, 0)) ≤ (bestIdx f mid).1) := by
  have hun : bestIdx f mid = bestAux f mid 0 (0, none) := rfl
  rcases bestAux_spec f mid 0 (0, none) with ⟨h1, _⟩ |
    ⟨k', hk', hb2, hb1, hlt, hpre, hsuf⟩
  · rw [hun, h1] at hb
    simp at hb
  · rw [hun, hb2] at hb
    have hkk : k' = k := by
      have := Option.some.inj hb
      omega
    subst hkk
    rw [hun]
    exact ⟨hk', hb1, hlt, hpre, hsuf⟩

lemma bestIdx_none_fst {f : Point → ℚ} {mid : List Point}
    (hb : (bestIdx f mid).2 = none) : (bestIdx f mid).1 = 0 := by
  have hun : bestIdx f mid = bestAux f mid 0 (0, none) := rfl
  rcases bestAux_spec f mid 0 (0, none) with ⟨h1, _⟩ | ⟨k', _, hb2, _⟩
  · rw [hun, h1]
  · rw [hun, hb2] at hb
    simp at hb

lemma sqrtGtQ_zero {tol : ℚ} (htol : 0 ≤ tol) : sqrtGtQ 0 tol = false := by
  unfold sqrtGtQ
  rw [if_neg (not_lt.2 htol)]
  exact decide_eq_false (not_lt.2 (sq_nonneg tol))

lemma getD_append_cons {α : Type} :
    ∀ (l1 : List α) (x : α) (l2 : List α) (d : α),
      (l1 ++ x :: l2).getD l1.length d = x
  | [], _, _, _ => rfl
  | a :: t, x, l2, d => by
    simp only [List.cons_append, List.length_cons, List.getD_cons_succ]
    exact getD_append_cons t x l2 d

lemma drop_append_cons {α : Type} :
    ∀ (l1 : List α) (x : α) (l2 : List α),
      (l1 ++ x :: l2).drop (l1.length + 1) = l2
  | [], _, _ => rfl
  | a :: t, x, l2 => by
    simp only [List.cons_append, List.length_cons, List.drop_succ_cons]
    exact drop_append_cons t x l2

lemma dpRun_idem (tol : ℚ) (htol : 0 ≤ tol) :
    ∀ (N : ℕ) (mid : List Point) (a b : Point), mid.length ≤ N →
      dpRun tol a b (dpRun tol a b mid) = dpRun tol a b mid := by
  intro N
  induction N with
  | zero =>
    intro mid a b hlen
    have hm : mid = [] := List.length_eq_zero.1 (by omega)
    subst hm
    rw [dpRun_nil, dpRun_nil]
  | succ N ih =>
    intro mid a b hlen
    cases hb : (bestIdx (fun q => perpendicularDistanceSq q a b) mid).2 with
    | none => rw [dpRun_none hb, dpRun_nil]
    | some k =>
      by_cases hk : k < mid.length
      · by_cases hgt : sqrtGtQ
            (bestIdx (fun q => perpendicularDistanceSq q a b) mid).1 tol = true
        · obtain ⟨hk', hfp, hmd0, hpre, hsuf⟩ := bestIdx_some_facts hb
          rw [dpRun_some_gt hb hk hgt]
          have hLmem : ∀ x ∈ dpRun tol a (mid.getD k (0, 0)) (mid.take k),
              perpendicularDistanceSq x a b <
                perpendicularDistanceSq (mid.getD k (0, 0)) a b := by
            intro x hx
            have hxt : x ∈ mid.take k := dpRun_subset tol N (mid.take k) a
              (mid.getD k (0, 0)) (by simp only [List.length_take]; omega) x hx
            obtain ⟨j, hjk, hjlen, hgd⟩ := mem_take_exists (0, 0) hxt
            have := hpre j hjk
            rw [hgd] at this
            rw [hfp] at this
            exact this
          have hRmem : ∀ x ∈ dpRun tol (mid.getD k (0, 0)) b (mid.drop (k + 1)),
              perpendicularDistanceSq x a b ≤
                perpendicularDistanceSq (mid.getD k (0, 0)) a b := by
            intro x hx
            have hxt : x ∈ mid.drop (k + 1) := dpRun_subset tol N (mid.drop (k + 1))
              (mid.getD k (0, 0)) b (by simp only [List.length_drop]; omega) x hx
            obtain ⟨j, hjlen, hgd⟩ := mem_drop_exists (0, 0) hxt
            have := hsuf (k + 1 + j) (by omega) hjlen
            rw [hgd] at this
            rw [hfp] at this
            exact this
          have hfp0 : 0 < perpendicularDistanceSq (mid.getD k (0, 0)) a b := by
            rw [← hfp]
            exact hmd0
          have hshape := bestIdx_shape (fun q => perpendicularDistanceSq q a b)
            (dpRun tol a (mid.getD k (0, 0)) (mid.take k)) (mid.getD k (0, 0))
            (dpRun tol (mid.getD k (0, 0)) b (mid.drop (k + 1))) hLmem hRmem hfp0
          have hb2 : (bestIdx (fun q => perpendicularDistanceSq q a b)
              (dpRun tol a (mid.getD k (0, 0)) (mid.take k) ++
                mid.getD k (0, 0) ::
                  dpRun tol (mid.getD k (0, 0)) b (mid.drop (k + 1)))).2 =
              some (dpRun tol a (mid.getD k (0, 0)) (mid.take k)).length := by
            rw [hshape]
          have hk2 : (dpRun tol a (mid.getD k (0, 0)) (mid.take k)).length <
              (dpRun tol a (mid.getD k (0, 0)) (mid.take k) ++
                mid.getD k (0, 0) ::
                  dpRun tol (mid.getD k (0, 0)) b (mid.drop (k + 1))).length := by
            simp
          have hgt2 : sqrtGtQ (bestIdx (fun q => perpendicularDistanceSq q a b)
              (dpRun tol a (mid.getD k (0, 0)) (mid.take k) ++
                mid.getD k (0, 0) ::
                  dpRun tol (mid.getD k (0, 0)) b (mid.drop (k + 1)))).1 tol
              = true := by
            rw [hshape]
            show sqrtGtQ (perpendicularDistanceSq (mid.getD k (0, 0)) a b) tol = true
            rw [← hfp]
            exact hgt
          rw [dpRun_some_gt hb2 hk2 hgt2]
          rw [List.take_left]
          rw [getD_append_cons]
          rw [drop_append_cons]
          rw [ih (mid.take k) a (mid.getD k (0, 0))
            (by simp only [List.length_take]; omega)]
          rw [ih (mid.drop (k + 1)) (mid.getD k (0, 0)) b
            (by simp only [List.length_drop]; omega)]
        · rw [dpRun_some_not_gt hb hk hgt, dpRun_nil]
      · rw [dpRun_some_oob hb hk, dpRun_nil]

lemma sliceMid_nil (points : Contour) (s e : ℕ) (h : e - s ≤ 1) :
    sliceMid points s e = [] := by
  unfold sliceMid
  have h0 : e - s - 1 = 0 := by omega
  rw [h0, List.take_zero]

lemma sliceMid_length (points : Contour) (s e : ℕ) (he : e ≤ points.length) :
    (sliceMid points s e).length = e - s - 1 := by
  unfold sliceMid
  simp only [List.length_take, List.length_drop]
  omega

lemma sliceMid_getD (points : Contour) (s e k : ℕ) (hk : k < e - s - 1) :
    (sliceMid points s e).getD k (0, 0) = points.getD (s + 1 + k) (0, 0) := by
  unfold sliceMid
  rw [List.getD_eq_getElem?_getD, List.getD_eq_getElem?_getD]
  rw [List.getElem?_take_of_lt hk, List.getElem?_drop]

lemma sliceMid_take (points : Contour) (s e k : ℕ) (hk : k ≤ e - s - 1) :
    (sliceMid points s e).take k = sliceMid points s (s + 1 + k) := by
  unfold sliceMid
  rw [List.take_take]
  have h1 : min k (e - s - 1) = k := by omega
  have h2 : s + 1 + k - s - 1 = k := by omega
  rw [h1, h2]

lemma sliceMid_drop (points : Contour) (s e k : ℕ) :
    (sliceMid points s e).drop (k + 1) = sliceMid points (s + 1 + k) e := by
  unfold sliceMid
  rw [List.drop_take, List.drop_drop]
  have h1 : e - s - 1 - (k + 1) = e - (s + 1 + k) - 1 := by omega
  have h2 : s + 1 + (k + 1) = s + 1 + k + 1 := by omega
  rw [h1, h2]

lemma scanAux_eq_bestAux (points : Contour) (s e : ℕ) :
    ∀ (cnt m : ℕ) (st : ℚ × ℕ) (bo : ℚ × Option ℕ),
      s + 1 ≤ m → m + cnt ≤ e → e ≤ points.length →
      st.1 = bo.1 →
      ((bo.2 = none ∧ st.2 = s) ∨ (∃ k, bo.2 = some k ∧ st.2 = s + 1 + k)) →
      (scanAux points s e (List.range' m cnt) st).1 =
        (bestAux (fun q => perpendicularDistanceSq q (points.getD s (0, 0))
          (points.getD e (0, 0))) ((points.drop m).take cnt) (m - s - 1) bo).1 ∧
      (((bestAux (fun q => perpendicularDistanceSq q (points.getD s (0, 0))
          (points.getD e (0, 0))) ((points.drop m).take cnt) (m - s - 1) bo).2 = none ∧
        (scanAux points s e (List.range' m cnt) st).2 = s) ∨
       (∃ k, (bestAux (fun q => perpendicularDistanceSq q (points.getD s (0, 0))
          (points.getD e (0, 0))) ((points.drop m).take cnt) (m - s - 1) bo).2
            = some k ∧
        (scanAux points s e (List.range' m cnt) st).2 = s + 1 + k)) := by
  intro cnt
  induction cnt with
  | zero =>
    intro m st bo _ _ _ hfst hrel
    exact ⟨hfst, hrel⟩
  | succ cnt ih =>
    intro m st bo hm hcnt hlen hfst hrel
    have hmlt : m < points.length := by omega
    have hdrop : points.drop m = points[m] :: points.drop (m + 1) :=
      List.drop_eq_getElem_cons hmlt
    have hgd : points.getD m (0, 0) = points[m] :=
      List.getD_eq_getElem points (0, 0) hmlt
    rw [List.range'_succ, hdrop, List.take_succ_cons]
    simp only [scanAux, bestAux]
    rw [hgd, hfst]
    have harith : m - s - 1 + 1 = (m + 1) - s - 1 := by omega
    by_cases hd : bo.1 < perpendicularDistanceSq points[m]
        (points.getD s (0, 0)) (points.getD e (0, 0))
    · rw [if_pos hd, if_pos hd, harith]
      exact ih (m + 1)
        (perpendicularDistanceSq points[m] (points.getD s (0, 0))
          (points.getD e (0, 0)), m)
        (perpendicularDistanceSq points[m] (points.getD s (0, 0))
          (points.getD e (0, 0)), some (m - s - 1))
        (by omega) (by omega) hlen rfl
        (Or.inr ⟨m - s - 1, rfl, by simp; omega⟩)
    · rw [if_neg hd, if_neg hd, harith]
      exact ih (m + 1) st bo (by omega) (by omega) hlen hfst hrel

lemma simplifyRecursive_eq_dpRun (points : Contour) (tol : ℚ) (htol : 0 ≤ tol) :
    ∀ (fuel s e : ℕ), s < e → e < points.length → e - s ≤ fuel →
      simplifyRecursive points tol fuel s e =
        dpRun tol (points.getD s (0, 0)) (points.getD e (0, 0))
          (sliceMid points s e) := by
  intro fuel
  induction fuel with
  | zero => intro s e hse _ hf; omega
  | succ f ih =>
    intro s e hse helen hf
    rw [simplifyRecursive]
    by_cases h1 : e - s ≤ 1
    · rw [if_pos h1, sliceMid_nil points s e h1, dpRun_nil]
    · rw [if_neg h1]
      have hrel := scanAux_eq_bestAux points s e (e - (s + 1)) (s + 1) (0, s)
        (0, none) (le_refl _) (by omega) (by omega) rfl (Or.inl ⟨rfl, rfl⟩)
      have he1 : e - (s + 1) = e - s - 1 := by omega
      have hpos0 : s + 1 - s - 1 = 0 := by omega
      rw [he1, hpos0] at hrel
      have hsr : scanRange points s e =
          scanAux points s e (List.range' (s + 1) (e - s - 1)) (0, s) := by
        unfold scanRange
        rw [he1]
      have hbi : bestIdx (fun q => perpendicularDistanceSq q (points.getD s (0, 0))
          (points.getD e (0, 0))) (sliceMid points s e) =
          bestAux (fun q => perpendicularDistanceSq q (points.getD s (0, 0))
            (points.getD e (0, 0))) ((points.drop (s + 1)).take (e - s - 1)) 0
            (0, none) := rfl
      rw [← hsr, ← hbi] at hrel
      rcases hrel with ⟨hfst, hsnd⟩
      rcases hsnd with ⟨hbnone, _⟩ | ⟨k, hbsome, hmi⟩
      · have h0 := bestIdx_none_fst hbnone
        have hgt : ¬ sqrtGtQ (scanRange points s e).1 tol = true := by
          rw [hfst, h0, sqrtGtQ_zero htol]
          simp
        rw [if_neg hgt, dpRun_none hbnone]
      · obtain ⟨hk', _, _, _, _⟩ := bestIdx_some_facts hbsome
        have hmidlen : (sliceMid points s e).length = e - s - 1 :=
          sliceMid_length points s e (by omega)
        have hkk : k < e - s - 1 := by omega
        by_cases hgt : sqrtGtQ (scanRange points s e).1 tol = true
        · rw [if_pos hgt]
          have hgt2 : sqrtGtQ (bestIdx (fun q => perpendicularDistanceSq q
              (points.getD s (0, 0)) (points.getD e (0, 0)))
              (sliceMid points s e)).1 tol = true := by
            rw [← hfst]
            exact hgt
          rw [dpRun_some_gt hbsome hk' hgt2]
          rw [hmi]
          rw [sliceMid_getD points s e k hkk]
          rw [sliceMid_take points s e k (by omega)]
          rw [sliceMid_drop points s e k]
          rw [← ih s (s + 1 + k) (by omega) (by omega) (by omega)]
          rw [← ih (s + 1 + k) e (by omega) (by omega) (by omega)]
        · rw [if_neg hgt]
          have hgt2 : ¬ sqrtGtQ (bestIdx (fun q => perpendicularDistanceSq q
              (points.getD s (0, 0)) (points.getD e (0, 0)))
              (sliceMid points s e)).1 tol = true := by
            rw [← hfst]
            exact hgt
          rw [dpRun_some_not_gt hbsome hk' hgt2]

/-- C5: Douglas-Peucker simplification is idempotent for nonnegative
tolerance (negative tolerances make the JS recursion overflow the stack):
re-simplifying an already-simplified contour with the same tolerance returns
exactly the same point sequence. -/
theorem claim_C5_simplify_idempotent (contour : Contour) (tol : ℚ)
    (htol : 0 ≤ tol) :
    simplifyContour (simplifyContour contour tol) tol =
      simplifyContour contour tol := by
  by_cases hle : contour.length ≤ 2
  · have h1 : simplifyContour contour tol = contour := by
      rw [simplifyContour, if_pos hle]
    rw [h1, h1]
  · have hn3 : 3 ≤ contour.length := by omega
    have hS : simplifyContour contour tol =
        contour.getD 0 (0, 0) ::
          simplifyRecursive contour tol contour.length 0 (contour.length - 1) ++
          [contour.getD (contour.length - 1) (0, 0)] := by
      rw [simplifyContour, if_neg hle]
    have hpicks : simplifyRecursive contour tol contour.length 0
        (contour.length - 1) =
        dpRun tol (contour.getD 0 (0, 0))
          (contour.getD (contour.length - 1) (0, 0))
          (sliceMid contour 0 (contour.length - 1)) :=
      simplifyRecursive_eq_dpRun contour tol htol contour.length 0
        (contour.length - 1) (by omega) (by omega) (by omega)
    rw [hS, hpicks]
    set a := contour.getD 0 (0, 0) with ha
    set b := contour.getD (contour.length - 1) (0, 0) with hb
    set P := dpRun tol a b (sliceMid contour 0 (contour.length - 1)) with hP
    have hidem : dpRun tol a b P = P := by
      rw [hP]
      exact dpRun_idem tol htol (sliceMid contour 0 (contour.length - 1)).length
        (sliceMid contour 0 (contour.length - 1)) a b (le_refl _)
    by_cases hPnil : P = []
    · rw [hPnil]
      rw [simplifyContour, if_pos (by simp)]
    · have hSlen : ((a :: P) ++ [b]).length = P.length + 2 := by simp
      have hSle : ¬ ((a :: P) ++ [b]).length ≤ 2 := by
        rw [hSlen]
        have hne : P.length ≠ 0 := fun hz => hPnil (List.length_eq_zero.1 hz)
        omega
      rw [simplifyContour, if_neg hSle]
      have hg0 : ((a :: P) ++ [b]).getD 0 (0, 0) = a := by
        rw [List.cons_append]
        simp
      have hglast : ((a :: P) ++ [b]).getD (((a :: P) ++ [b]).length - 1)
          (0, 0) = b := by
        have h1 : ((a :: P) ++ [b]).length - 1 = (a :: P).length := by simp
        rw [h1]
        exact getD_append_cons (a :: P) b [] (0, 0)
      have hmid : sliceMid ((a :: P) ++ [b]) 0 (((a :: P) ++ [b]).length - 1)
          = P := by
        unfold sliceMid
        have h2 : ((a :: P) ++ [b]).length - 1 - 0 - 1 = P.length := by simp
        rw [h2, List.cons_append, List.drop_succ_cons, List.drop_zero]
        exact List.take_left P [b]
      have hbridge := simplifyRecursive_eq_dpRun ((a :: P) ++ [b]) tol htol
        ((a :: P) ++ [b]).length 0 (((a :: P) ++ [b]).length - 1)
        (by rw [hSlen]; omega)
        (by rw [hSlen]; omega)
        (by omega)
      rw [hbridge, hg0, hglast, hmid, hidem]

/-- Witness for C5 at the triangle contour with the pipeline tolerance 2. -/
theorem claim_C5_witness :
    simplifyContour (simplifyContour triContour 2) 2 =
      simplifyContour triContour 2 :=
  claim_C5_simplify_idempotent triContour 2 (by norm_num)

lemma cell_index_bounds {w h : ℕ} {x y : ℤ} (hx0 : 0 ≤ x) (hxw : x < (w : ℤ))
    (hy0 : 0 ≤ y) (hyh : y < (h : ℤ)) :
    0 ≤ y * w + x ∧ y * w + x < ((w * h : ℕ) : ℤ) := by
  constructor
  · have h1 : 0 ≤ y * (w : ℤ) := mul_nonneg hy0 (by positivity)
    omega
  · have h1 : y * (w : ℤ) ≤ ((h : ℤ) - 1) * w := by
      apply mul_le_mul_of_nonneg_right
      · omega
      · positivity
    have h3 : ((h : ℤ) - 1) * (w : ℤ) + (w : ℤ) = (w : ℤ) * (h : ℤ) := by ring
    push_cast
    linarith

lemma maskGet_padded {m : Mask} {w h : ℕ} (hlen : w * h ≤ m.length) {i : ℤ}
    (h0 : 0 ≤ i) (hi : i < ((w * h : ℕ) : ℤ)) :
    maskGet (addFrameEdgePadding m w h) i =
      if isBorderIdx w h i.toNat then some 0 else maskGet m i := by
  unfold maskGet addFrameEdgePadding
  rw [if_pos h0]
  rw [overwriteBorder_getD w h m 0 i.toNat (by omega)]
  simp only [Nat.zero_add]
  by_cases hb : isBorderIdx w h i.toNat = true
  · rw [if_pos hb, if_pos hb]
  · rw [if_neg hb, if_neg hb, if_pos h0]

lemma padding_borderZero {m : Mask} {w h : ℕ} (hlen : w * h ≤ m.length) :
    borderZero (addFrameEdgePadding m w h) w h := by
  intro x y hx0 hxw hy0 hyh hedge
  obtain ⟨xn, rfl⟩ : ∃ xn : ℕ, x = (xn : ℤ) := ⟨x.toNat, by omega⟩
  obtain ⟨yn, rfl⟩ : ∃ yn : ℕ, y = (yn : ℤ) := ⟨y.toNat, by omega⟩
  have hxw' : xn < w := by omega
  have hyh' : yn < h := by omega
  have hidx : (yn : ℤ) * (w : ℤ) + (xn : ℤ) = ((yn * w + xn : ℕ) : ℤ) := by
    push_cast
    ring
  rw [hidx]
  rw [maskGet_padded hlen (by positivity)
    (by exact_mod_cast cell_index_lt hxw' hyh')]
  rw [Int.toNat_natCast]
  rw [if_pos]
  rw [isBorderIdx_cell hxw' hyh']
  omega

lemma findNext_interior {m : Mask} {w h : ℕ} (hbz : borderZero m w h)
    {x y nx ny : ℤ} {dir ndir : ℕ}
    (hfn : findNext m w h x y dir = some (nx, ny, ndir)) :
    interiorPt w h (nx, ny) := by
  obtain ⟨i, -, hi⟩ := List.exists_of_findSome?_eq_some hfn
  dsimp only at hi
  split at hi
  case isFalse => simp at hi
  case isTrue hcond =>
    obtain ⟨ha, hb, hc2, hd2, he, -⟩ := hcond
    have htup := Option.some.inj hi
    rw [Prod.mk.injEq, Prod.mk.injEq] at htup
    obtain ⟨h1, h2, -⟩ := htup
    rw [← h1, ← h2]
    unfold interiorPt
    dsimp only
    by_contra hcon
    push_neg at hcon
    have hedge : x + (traceDirections.getD ((dir + i) % 8) (0, 0)).1 = 0 ∨
        x + (traceDirections.getD ((dir + i) % 8) (0, 0)).1 = (w : ℤ) - 1 ∨
        y + (traceDirections.getD ((dir + i) % 8) (0, 0)).2 = 0 ∨
        y + (traceDirections.getD ((dir + i) % 8) (0, 0)).2 = (h : ℤ) - 1 := by
      omega
    have hz := hbz _ _ ha hb hc2 hd2 hedge
    rw [hz] at he
    simp at he

lemma traceLoop_interior {m : Mask} {w h : ℕ} {sx sy : ℤ}
    (hbz : borderZero m w h) :
    ∀ (fuel : ℕ) (x y : ℤ) (dir : ℕ) (visited : List ℤ) (acc : Contour),
      interiorPt w h (x, y) → (∀ p ∈ acc, interiorPt w h p) →
      ∀ p ∈ (traceLoop m w h sx sy fuel x y dir visited acc).1,
        interiorPt w h p := by
  intro fuel
  induction fuel with
  | zero =>
    intro x y dir visited acc hxy hacc p hp
    rw [traceLoop] at hp
    rcases List.mem_append.1 hp with h1 | h1
    · exact hacc p h1
    · rw [List.mem_singleton.1 h1]
      exact hxy
  | succ f ih =>
    intro x y dir visited acc hxy hacc p hp
    rw [traceLoop] at hp
    revert hp
    rcases hfn : findNext m w h x y dir with _ | ⟨nx, ny, ndir⟩ <;> intro hp
    · rcases List.mem_append.1 hp with h1 | h1
      · exact hacc p h1
      · rw [List.mem_singleton.1 h1]; exact hxy
    · simp only [] at hp
      by_cases hs : nx = sx ∧ ny = sy
      · rw [if_pos hs] at hp
        rcases List.mem_append.1 hp with h1 | h1
        · exact hacc p h1
        · rw [List.mem_singleton.1 h1]; exact hxy
      · rw [if_neg hs] at hp
        refine ih nx ny ndir _ _ (findNext_interior hbz hfn) ?_ p hp
        intro q hq
        rcases List.mem_append.1 hq with h1 | h1
        · exact hacc q h1
        · rw [List.mem_singleton.1 h1]; exact hxy

lemma interiorCoords_mem {w h : ℕ} {xy : ℕ × ℕ}
    (hmem : xy ∈ interiorCoords w h) :
    1 ≤ xy.1 ∧ xy.1 + 1 < w ∧ 1 ≤ xy.2 ∧ xy.2 + 1 < h := by
  unfold interiorCoords at hmem
  rw [List.mem_flatMap] at hmem
  obtain ⟨y, hy, hxy⟩ := hmem
  rw [List.mem_map] at hxy
  obtain ⟨x, hx, rfl⟩ := hxy
  rw [List.mem_map] at hy hx
  obtain ⟨y0, hy0, rfl⟩ := hy
  obtain ⟨x0, hx0, rfl⟩ := hx
  rw [List.mem_range] at hy0 hx0
  dsimp only
  omega

lemma findContoursAux_interior {m : Mask} {w h : ℕ} (hbz : borderZero m w h) :
    ∀ (coords : List (ℕ × ℕ)) (visited : List ℤ) (acc : List Contour),
      (∀ c ∈ acc, ∀ p ∈ c, interiorPt w h p) →
      (∀ xy ∈ coords, 1 ≤ xy.1 ∧ xy.1 + 1 < w ∧ 1 ≤ xy.2 ∧ xy.2 + 1 < h) →
      ∀ c ∈ (findContoursAux m w h coords visited acc).1, ∀ p ∈ c,
        interiorPt w h p
  | [], visited, acc, hacc, _, c, hc, p, hp => hacc c hc p hp
  | (x, y) :: rest, visited, acc, hacc, hcoords, c, hc, p, hp => by
    have hxy := hcoords (x, y) (List.mem_cons_self _ _)
    simp only [] at hxy
    rw [findContoursAux] at hc
    by_cases h1 : maskGet m ((y : ℤ) * w + x) = some 1 ∧
        ((y : ℤ) * w + x) ∉ visited
    · rw [if_pos h1] at hc
      by_cases h2 : isBoundaryPixel m w h x y = true
      · rw [if_pos h2] at hc
        have hstart : interiorPt w h ((x : ℤ), (y : ℤ)) := by
          unfold interiorPt
          simp only []
          push_cast
          omega
        have htr : ∀ q ∈ (traceContour m w h x y visited).1, interiorPt w h q := by
          intro q hq
          exact traceLoop_interior hbz 4999 x y 0 visited [] hstart
            (by intro r hr; simp at hr) q hq
        by_cases h3 : 10 < (traceContour m w h x y visited).1.length
        · rw [if_pos h3] at hc
          refine findContoursAux_interior hbz rest _ _ ?_
            (fun xy hxy2 => hcoords xy (List.mem_cons_of_mem _ hxy2)) c hc p hp
          intro c2 hc2 q hq
          rcases List.mem_append.1 hc2 with h4 | h4
          · exact hacc c2 h4 q hq
          · rw [List.mem_singleton.1 h4] at hq
            exact htr q hq
        · rw [if_neg h3] at hc
          exact findContoursAux_interior hbz rest _ _ hacc
            (fun xy hxy2 => hcoords xy (List.mem_cons_of_mem _ hxy2)) c hc p hp
      · rw [if_neg h2] at hc
        exact findContoursAux_interior hbz rest _ _ hacc
          (fun xy hxy2 => hcoords xy (List.mem_cons_of_mem _ hxy2)) c hc p hp
    · rw [if_neg h1] at hc
      exact findContoursAux_interior hbz rest _ _ hacc
        (fun xy hxy2 => hcoords xy (List.mem_cons_of_mem _ hxy2)) c hc p hp

lemma buildMask_length (data : List ℚ) (size : ℕ) :
    size ≤ (buildMask data size).length := by
  unfold buildMask
  simp only [List.length_append, List.length_map, List.length_replicate]
  omega

lemma simplifyContour_subset (c : Contour) (tol : ℚ) :
    ∀ p ∈ simplifyContour c tol, p ∈ c := by
  intro p hp
  by_cases hle : c.length ≤ 2
  · rw [simplifyContour, if_pos hle] at hp
    exact hp
  · rw [simplifyContour, if_neg hle] at hp
    rcases List.mem_cons.1 hp with h1 | h1
    · subst h1
      exact getD_mem_of_lt c 0 (0, 0) (by omega)
    · rcases List.mem_append.1 h1 with h2 | h2
      · exact simplifyRecursive_subset c tol c.length 0 (c.length - 1)
          (by omega) (by omega) p h2
      · rw [List.mem_singleton.1 h2]
        exact getD_mem_of_lt c (c.length - 1) (0, 0) (by omega)

lemma removeDuplicateContours_subset (cfg : TracerConfig) (cs : List Contour) :
    ∀ c ∈ removeDuplicateContours cfg cs, c ∈ cs := by
  intro c hc
  unfold removeDuplicateContours at hc
  by_cases hle : cs.length ≤ 1
  · rw [if_pos hle] at hc
    exact hc
  · rw [if_neg hle] at hc
    simp only [List.mem_map, List.mem_filter] at hc
    obtain ⟨pq, ⟨hpe, _⟩, rfl⟩ := hc
    have hgd := mem_enum_getD [] cs pq hpe
    rw [← hgd.2]
    exact getD_mem_of_lt cs pq.1 [] hgd.1

/-- C10 (implicit invariant): every point of every contour produced by
`extractContours` lies strictly inside the one-pixel frame margin:
`1 ≤ x ≤ width-2` and `1 ≤ y ≤ height-2`. -/
theorem claim_C10_points_interior (cfg : TracerConfig) (seg : Segmentation) :
    ∀ c ∈ (extractContours cfg seg).2, ∀ p ∈ c,
      interiorPt seg.width seg.height p := by
  intro c hc p hp
  unfold extractContours at hc
  by_cases hwh : seg.width ≠ 0 ∧ seg.height ≠ 0
  · rw [if_pos hwh] at hc
    by_cases hz : personPixelCount seg.data = 0
    · rw [if_pos hz] at hc
      simp at hc
    · rw [if_neg hz] at hc
      simp only [] at hc
      have hc3 := removeDuplicateContours_subset cfg _ c hc
      obtain ⟨c0, hc0mem, rfl⟩ := List.mem_map.1 hc3
      have hc0 : c0 ∈ findContours (addFrameEdgePadding
          (buildMask seg.data (seg.width * seg.height)) seg.width seg.height)
          seg.width seg.height := (List.mem_filter.1 hc0mem).1
      have hp0 : p ∈ c0 := simplifyContour_subset c0 2 p hp
      unfold findContours at hc0
      exact findContoursAux_interior
        (padding_borderZero (buildMask_length seg.data _))
        (interiorCoords seg.width seg.height) [] []
        (by intro c2 hc2; simp at hc2)
        (fun xy hxy => interiorCoords_mem hxy) c0 hc0 p hp0
  · rw [if_neg hwh] at hc
    simp at hc

/-- Witness for C10 on the 6×6 all-foreground input: the point `(1,1)` of the
single extracted contour is interior. -/
theorem claim_C10_witness : interiorPt segFull6.width segFull6.height (1, 1) :=
  claim_C10_points_interior defaultTracerConfig segFull6
    [((1 : ℤ), (1 : ℤ)), (4, 1), (4, 4), (1, 2)]
    (by with_unfolding_all decide) ((1 : ℤ), (1 : ℤ)) (by decide)

lemma list_any_congr {α : Type} {l : List α} {f g : α → Bool}
    (h : ∀ a ∈ l, f a = g a) : l.any f = l.any g := by
  induction l with
  | nil => rfl
  | cons a t ih =>
    rw [List.any_cons, List.any_cons, h a (List.mem_cons_self a t),
      ih (fun x hx => h x (List.mem_cons_of_mem a hx))]

lemma findSome?_congr {α β : Type} {l : List α} {f g : α → Option β}
    (h : ∀ a ∈ l, f a = g a) : l.findSome? f = l.findSome? g := by
  induction l with
  | nil => rfl
  | cons a t ih =>
    rw [List.findSome?_cons, List.findSome?_cons, h a (List.mem_cons_self a t),
      ih (fun x hx => h x (List.mem_cons_of_mem a hx))]

lemma getD_append_left {α : Type} (l1 l2 : List α) (d : α) (j : ℕ)
    (hj : j < l1.length) : (l1 ++ l2).getD j d = l1.getD j d := by
  rw [List.getD_eq_getElem?_getD, List.getD_eq_getElem?_getD,
    List.getElem?_append_left hj]

lemma buildMask_getD_lt {data : List ℚ} {size j : ℕ} (hj : j < data.length) :
    (buildMask data size).getD j none = some (classifyPixel (data.getD j 0)) := by
  unfold buildMask
  rw [getD_append_left _ _ _ _ (by simpa using hj)]
  rw [List.getD_eq_getElem?_getD, List.getElem?_map, List.getElem?_eq_getElem hj]
  rw [List.getD_eq_getElem data 0 hj]
  rfl

lemma maskGet_buildMask_lt {data : List ℚ} {size : ℕ} {i : ℤ} (h0 : 0 ≤ i)
    (hj : i.toNat < data.length) :
    maskGet (buildMask data size) i = some (classifyPixel (data.getD i.toNat 0)) := by
  unfold maskGet
  rw [if_pos h0]
  exact buildMask_getD_lt hj

lemma buildMask_agree {w h : ℕ} (data extra : List ℚ) (hlen : data.length = w * h) :
    maskAgree (buildMask (data ++ extra) (w * h)) (buildMask data (w * h))
      (w * h) := by
  intro i h0 hi
  have hj : i.toNat < data.length := by omega
  rw [maskGet_buildMask_lt h0 (by simp only [List.length_append]; omega),
    maskGet_buildMask_lt h0 hj]
  rw [getD_append_left data extra 0 i.toNat hj]

lemma padding_agree {m1 m2 : Mask} {w h : ℕ} (hag : maskAgree m1 m2 (w * h))
    (hl1 : w * h ≤ m1.length) (hl2 : w * h ≤ m2.length) :
    maskAgree (addFrameEdgePadding m1 w h) (addFrameEdgePadding m2 w h)
      (w * h) := by
  intro i hi0 hi
  rw [maskGet_padded hl1 hi0 hi, maskGet_padded hl2 hi0 hi]
  by_cases hbb : isBorderIdx w h i.toNat = true
  · rw [if_pos hbb, if_pos hbb]
  · rw [if_neg hbb, if_neg hbb]
    exact hag i hi0 hi

lemma isBoundaryPixel_congr {m1 m2 : Mask} {w h : ℕ}
    (hag : maskAgree m1 m2 (w * h)) {x y : ℤ}
    (hx0 : 0 ≤ x) (hxw : x < (w : ℤ)) (hy0 : 0 ≤ y) (hyh : y < (h : ℤ)) :
    isBoundaryPixel m1 w h x y = isBoundaryPixel m2 w h x y := by
  have hcb := cell_index_bounds hx0 hxw hy0 hyh
  have hcenter : maskGet m1 (y * w + x) = maskGet m2 (y * w + x) :=
    hag _ hcb.1 hcb.2
  unfold isBoundaryPixel
  rw [hcenter]
  by_cases hc : maskGet m2 (y * w + x) = some 0
  · rw [if_pos hc, if_pos hc]
  · rw [if_neg hc, if_neg hc]
    apply list_any_congr
    intro d _
    dsimp only
    by_cases h1 : (0 : ℤ) ≤ x + d.1
    case neg => simp [h1]
    by_cases h2 : x + d.1 < (w : ℤ)
    case neg => simp [h2]
    by_cases h3 : (0 : ℤ) ≤ y + d.2
    case neg => simp [h3]
    by_cases h4 : y + d.2 < (h : ℤ)
    case neg => simp [h4]
    have hcb2 := cell_index_bounds h1 h2 h3 h4
    have hn : maskGet m1 ((y + d.2) * w + (x + d.1)) =
        maskGet m2 ((y + d.2) * w + (x + d.1)) := hag _ hcb2.1 hcb2.2
    rw [hn]

lemma findNext_congr {m1 m2 : Mask} {w h : ℕ} (hag : maskAgree m1 m2 (w * h))
    (x y : ℤ) (dir : ℕ) :
    findNext m1 w h x y dir = findNext m2 w h x y dir := by
  unfold findNext
  apply findSome?_congr
  intro i _
  dsimp only
  refine if_congr ?_ rfl rfl
  constructor
  · rintro ⟨ha, hb, hc, hd, he, hf⟩
    have hcb := cell_index_bounds ha hb hc hd
    refine ⟨ha, hb, hc, hd, ?_, ?_⟩
    · rw [← hag _ hcb.1 hcb.2]
      exact he
    · rw [← isBoundaryPixel_congr hag ha hb hc hd]
      exact hf
  · rintro ⟨ha, hb, hc, hd, he, hf⟩
    have hcb := cell_index_bounds ha hb hc hd
    refine ⟨ha, hb, hc, hd, ?_, ?_⟩
    · rw [hag _ hcb.1 hcb.2]
      exact he
    · rw [isBoundaryPixel_congr hag ha hb hc hd]
      exact hf

lemma traceLoop_congr {m1 m2 : Mask} {w h : ℕ} (hag : maskAgree m1 m2 (w * h))
    (sx sy : ℤ) :
    ∀ (fuel : ℕ) (x y : ℤ) (dir : ℕ) (visited : List ℤ) (acc : Contour),
      traceLoop m1 w h sx sy fuel x y dir visited acc =
        traceLoop m2 w h sx sy fuel x y dir visited acc := by
  intro fuel
  induction fuel with
  | zero => intro x y dir visited acc; rw [traceLoop, traceLoop]
  | succ f ih =>
    intro x y dir visited acc
    rw [traceLoop, traceLoop, ← findNext_congr hag x y dir]
    rcases findNext m1 w h x y dir with _ | ⟨nx, ny, ndir⟩
    · rfl
    · dsimp only
      by_cases hs : nx = sx ∧ ny = sy
      · rw [if_pos hs, if_pos hs]
      · rw [if_neg hs, if_neg hs, ih]

lemma traceContour_congr {m1 m2 : Mask} {w h : ℕ}
    (hag : maskAgree m1 m2 (w * h)) (x y : ℤ) (visited : List ℤ) :
    traceContour m1 w h x y visited = traceContour m2 w h x y visited := by
  unfold traceContour
  exact traceLoop_congr hag x y 4999 x y 0 visited []

lemma findContoursAux_congr {m1 m2 : Mask} {w h : ℕ}
    (hag : maskAgree m1 m2 (w * h)) :
    ∀ (coords : List (ℕ × ℕ)) (visited : List ℤ) (acc : List Contour),
      (∀ xy ∈ coords, xy.1 < w ∧ xy.2 < h) →
      findContoursAux m1 w h coords visited acc =
        findContoursAux m2 w h coords visited acc
  | [], _, _, _ => rfl
  | (x, y) :: rest, visited, acc, hcoords => by
    have hxy := hcoords (x, y) (List.mem_cons_self _ _)
    have hx0 : (0 : ℤ) ≤ (x : ℤ) := by positivity
    have hy0 : (0 : ℤ) ≤ (y : ℤ) := by positivity
    have hxw : (x : ℤ) < (w : ℤ) := by exact_mod_cast hxy.1
    have hyh : (y : ℤ) < (h : ℤ) := by exact_mod_cast hxy.2
    have hcb := cell_index_bounds hx0 hxw hy0 hyh
    have hidx : maskGet m1 ((y : ℤ) * w + x) = maskGet m2 ((y : ℤ) * w + x) :=
      hag _ hcb.1 hcb.2
    have hbp := isBoundaryPixel_congr hag hx0 hxw hy0 hyh
    have htc := traceContour_congr hag (x : ℤ) (y : ℤ) visited
    have hrest : ∀ xy ∈ rest, xy.1 < w ∧ xy.2 < h :=
      fun xy hm => hcoords xy (List.mem_cons_of_mem _ hm)
    simp only [findContoursAux]
    rw [hidx, hbp, htc]
    by_cases h1 : maskGet m2 ((y : ℤ) * w + x) = some 1 ∧
        ((y : ℤ) * w + x) ∉ visited
    · rw [if_pos h1, if_pos h1]
      by_cases h2 : isBoundaryPixel m2 w h x y = true
      · rw [if_pos h2, if_pos h2]
        by_cases h3 : 10 < (traceContour m2 w h x y visited).1.length
        · rw [if_pos h3, if_pos h3]
          exact findContoursAux_congr hag rest _ _ hrest
        · rw [if_neg h3, if_neg h3]
          exact findContoursAux_congr hag rest _ _ hrest
      · rw [if_neg h2, if_neg h2]
        exact findContoursAux_congr hag rest _ _ hrest
    · rw [if_neg h1, if_neg h1]
      exact findContoursAux_congr hag rest _ _ hrest

lemma findContoursAux_no_fg {m : Mask} {w h : ℕ} :
    ∀ (coords : List (ℕ × ℕ)) (visited : List ℤ) (acc : List Contour),
      (∀ xy ∈ coords, maskGet m ((xy.2 : ℤ) * w + xy.1) ≠ some 1) →
      (findContoursAux m w h coords visited acc).1 = acc
  | [], _, _, _ => rfl
  | (x, y) :: rest, visited, acc, hno => by
    simp only [findContoursAux]
    rw [if_neg (fun hcond => hno (x, y) (List.mem_cons_self _ _) hcond.1)]
    exact findContoursAux_no_fg rest _ _
      (fun xy hm => hno xy (List.mem_cons_of_mem _ hm))

lemma classifyPixel_cases (v : ℚ) : classifyPixel v = 0 ∨ classifyPixel v = 1 := by
  unfold classifyPixel
  split_ifs <;> simp

lemma personPixelCount_zero_mem {data : List ℚ} (h : personPixelCount data = 0) :
    ∀ v ∈ data, classifyPixel v = 0 := by
  intro v hv
  unfold personPixelCount at h
  rw [List.length_eq_zero] at h
  have hmem := List.filter_eq_nil_iff.1 h v hv
  have hne : ¬ classifyPixel v = 1 := by simpa using hmem
  rcases classifyPixel_cases v with h0 | h1
  · exact h0
  · exact absurd h1 hne

lemma personPixelCount_append (d1 d2 : List ℚ) :
    personPixelCount (d1 ++ d2) = personPixelCount d1 + personPixelCount d2 := by
  unfold personPixelCount
  rw [List.filter_append, List.length_append]

lemma extractContours_zero (cfg : TracerConfig) (w h : ℕ) (data : List ℚ)
    (hw : w ≠ 0) (hh : h ≠ 0) (hz : personPixelCount data = 0) :
    extractContours cfg ⟨w, h, data⟩ = (false, []) := by
  unfold extractContours
  dsimp only
  rw [if_pos ⟨hw, hh⟩, if_pos hz]

lemma extractContours_proceed (cfg : TracerConfig) (w h : ℕ) (data : List ℚ)
    (hw : w ≠ 0) (hh : h ≠ 0) (hz : personPixelCount data ≠ 0) :
    extractContours cfg ⟨w, h, data⟩ = (false, removeDuplicateContours cfg
      (((findContours (addFrameEdgePadding (buildMask data (w * h)) w h)
        w h).filter (fun c => 10 < c.length)).map
          (fun c => simplifyContour c 2))) := by
  unfold extractContours
  dsimp only
  rw [if_pos ⟨hw, hh⟩, if_neg hz]

/-- C2 (amended): the shape check fires (diagnostic plus empty result) exactly
when a field is missing or zero — a data array shorter than `width*height` is
never detected (see the counterexample) — while data entries at positions
`width*height` and beyond genuinely have no effect on the returned contours. -/
theorem claim_C2_malformed_handling :
    (∀ (cfg : TracerConfig) (seg : Segmentation),
      seg.width = 0 ∨ seg.height = 0 → extractContours cfg seg = (true, [])) ∧
    (∀ (cfg : TracerConfig) (w h : ℕ) (data extra : List ℚ),
      data.length = w * h →
      (extractContours cfg ⟨w, h, data ++ extra⟩).2 =
        (extractContours cfg ⟨w, h, data⟩).2) := by
  constructor
  · intro cfg seg hz
    unfold extractContours
    rw [if_neg (by tauto)]
  · intro cfg w h data extra hlen
    by_cases hwh : w ≠ 0 ∧ h ≠ 0
    · obtain ⟨hw, hh⟩ := hwh
      by_cases hz1 : personPixelCount data = 0
      · by_cases hz2 : personPixelCount (data ++ extra) = 0
        · rw [extractContours_zero cfg w h (data ++ extra) hw hh hz2,
            extractContours_zero cfg w h data hw hh hz1]
        · rw [extractContours_proceed cfg w h (data ++ extra) hw hh hz2,
            extractContours_zero cfg w h data hw hh hz1]
          have hfc : findContours (addFrameEdgePadding
              (buildMask (data ++ extra) (w * h)) w h) w h = [] := by
            unfold findContours
            rw [findContoursAux_no_fg (interiorCoords w h) [] []]
            intro xy hxy
            have hb := interiorCoords_mem hxy
            have hx0 : (0 : ℤ) ≤ (xy.1 : ℤ) := by positivity
            have hy0 : (0 : ℤ) ≤ (xy.2 : ℤ) := by positivity
            have hxw : (xy.1 : ℤ) < (w : ℤ) := by exact_mod_cast (by omega : xy.1 < w)
            have hyh : (xy.2 : ℤ) < (h : ℤ) := by exact_mod_cast (by omega : xy.2 < h)
            have hbounds := cell_index_bounds hx0 hxw hy0 hyh
            rw [maskGet_padded (buildMask_length _ _) hbounds.1 hbounds.2]
            by_cases hbord : isBorderIdx w h ((xy.2 : ℤ) * w + xy.1).toNat = true
            · rw [if_pos hbord]
              simp
            · rw [if_neg hbord]
              have htn : ((xy.2 : ℤ) * w + xy.1).toNat < data.length := by omega
              rw [maskGet_buildMask_lt hbounds.1
                (by simp only [List.length_append]; omega)]
              rw [getD_append_left data extra 0 _ htn]
              have hcz := personPixelCount_zero_mem hz1 _
                (getD_mem_of_lt data _ 0 htn)
              rw [hcz]
              simp
          rw [hfc]
          simp [removeDuplicateContours]
      · have hz2 : personPixelCount (data ++ extra) ≠ 0 := by
          rw [personPixelCount_append]
          omega
        rw [extractContours_proceed cfg w h (data ++ extra) hw hh hz2,
          extractContours_proceed cfg w h data hw hh hz1]
        have hfc : findContours (addFrameEdgePadding
            (buildMask (data ++ extra) (w * h)) w h) w h =
            findContours (addFrameEdgePadding (buildMask data (w * h)) w h)
              w h := by
          unfold findContours
          rw [findContoursAux_congr
            (padding_agree (buildMask_agree data extra hlen)
              (buildMask_length _ _) (buildMask_length _ _))
            (interiorCoords w h) [] []
            (fun xy hxy => by
              have hb := interiorCoords_mem hxy
              omega)]
        rw [hfc]
    · unfold extractContours
      dsimp only
      rw [if_neg hwh, if_neg hwh]

/-- Witness for C2's trailing-data clause at a concrete 2×2 input with one
extra trailing entry. -/
theorem claim_C2_witness :
    (extractContours defaultTracerConfig ⟨2, 2, [0, 0, 0, 0] ++ [1]⟩).2 =
      (extractContours defaultTracerConfig ⟨2, 2, [0, 0, 0, 0]⟩).2 :=
  claim_C2_malformed_handling.2 defaultTracerConfig 2 2 [0, 0, 0, 0] [1]
    (by decide)
